import Mathlib

/-!
# protoc-gen-jsonpb_haskell: a shallow embedding of `main.go`

The generator reads a protobuf descriptor tree and prints Haskell instance
declarations line by line into a buffer.  The embedding below follows the
source function by function:

* the Go standard-library string helpers the generator calls
  (`strings.Split`, `strings.Title`, `filepath.Ext`, ...) are modelled on
  ASCII text, character by character;
* the descriptor types carry the fields the generator reads;
* the `bytes.Buffer` is the list of the lines printed so far; every write
  in the source goes through `print`, which appends one formatted line and a
  newline, and `Buffer.String` renders the list back to the text;
* `for` loops are folds over explicit state.
-/

namespace ProtoLensJsonpb

/-! ## Go standard library, on ASCII text -/

namespace strings

/-- Go `strings.ToLower`: every upper-case ASCII letter is lower-cased. -/
def ToLower (s : String) : String := String.mk (s.data.map Char.toLower)

/-- Go `strings.ToUpper`: every lower-case ASCII letter is upper-cased. -/
def ToUpper (s : String) : String := String.mk (s.data.map Char.toUpper)

/-- Go `strings.isSeparator` on ASCII: letters, digits and the underscore
are not separators, every other character is. -/
def isSeparator (r : Char) : Bool :=
  !(r.isDigit || r.isLower || r.isUpper || r == '_')

/-- The closure of Go `strings.Title`: `prev` is the previous rune; a rune
that follows a separator is upper-cased, any other rune is kept. -/
def titleMap (prev : Char) : List Char → List Char
  | [] => []
  | r :: rs => (if isSeparator prev then r.toUpper else r) :: titleMap r rs

/-- Go `strings.Title`: the first letter of every word is upper-cased; the
scan starts with `prev = ' '`. -/
def Title (s : String) : String := String.mk (titleMap ' ' s.data)

/-- Splitting a character list at every occurrence of `sep`; the result has
one more segment than there are separators. -/
def splitChars (sep : Char) : List Char → List (List Char)
  | [] => [[]]
  | c :: cs =>
    if c = sep then [] :: splitChars sep cs
    else
      match splitChars sep cs with
      | [] => [[c]]
      | p :: ps => (c :: p) :: ps

/-- Go `strings.Split(s, sep)` for a one-character separator. -/
def Split (s : String) (sep : Char) : List String :=
  (splitChars sep s.data).map String.mk

/-- Go `strings.Join(parts, sep)`. -/
def Join : List String → String → String
  | [], _ => ""
  | [a], _ => a
  | a :: b :: rest, sep => a ++ sep ++ Join (b :: rest) sep

/-- Go `strings.TrimSuffix(s, suffix)`. -/
def TrimSuffix (s suffix : String) : String :=
  if suffix.data.isSuffixOf s.data then
    String.mk (s.data.take (s.data.length - suffix.data.length))
  else s

end strings

namespace filepath

/-- The backwards scan of Go `filepath.Ext`: `rev` is the part of the path
not yet visited, last character first, and `acc` the characters already
passed.  The scan stops at a path separator. -/
def extScan : List Char → List Char → List Char
  | [], _ => []
  | c :: rev, acc =>
    if c = '/' then []
    else if c = '.' then '.' :: acc
    else extScan rev (c :: acc)

/-- Go `filepath.Ext(path)`: the suffix beginning at the final dot of the
final path element, empty when there is no dot. -/
def Ext (path : String) : String := String.mk (extScan path.data.reverse [])

end filepath

/-! ## Descriptor types (`descriptor.proto`) -/

/-- The wire kinds of `FieldDescriptorProto.Type`. -/
inductive FieldType where
  | TYPE_DOUBLE | TYPE_FLOAT | TYPE_INT64 | TYPE_UINT64 | TYPE_INT32
  | TYPE_FIXED64 | TYPE_FIXED32 | TYPE_BOOL | TYPE_STRING | TYPE_GROUP
  | TYPE_MESSAGE | TYPE_BYTES | TYPE_UINT32 | TYPE_ENUM | TYPE_SFIXED32
  | TYPE_SFIXED64 | TYPE_SINT32 | TYPE_SINT64
  deriving DecidableEq, Repr

/-- The labels of `FieldDescriptorProto.Label`. -/
inductive FieldLabel where
  | LABEL_OPTIONAL | LABEL_REQUIRED | LABEL_REPEATED
  deriving DecidableEq, Repr

/-- The part of `descriptor.FieldDescriptorProto` the generator reads.
`oneofIndex` is the optional `int32` pointer `OneofIndex`. -/
structure FieldDescriptorProto where
  name : String
  label : FieldLabel
  type : FieldType
  typeName : String
  oneofIndex : Option Int
  deriving DecidableEq, Repr

/-- The part of `descriptor.OneofDescriptorProto` the generator reads. -/
structure OneofDescriptorProto where
  name : String
  deriving DecidableEq, Repr

/-- The part of `descriptor.EnumValueDescriptorProto` the generator reads. -/
structure EnumValueDescriptorProto where
  name : String
  deriving DecidableEq, Repr

/-- The part of `descriptor.EnumDescriptorProto` the generator reads. -/
structure EnumDescriptorProto where
  name : String
  value : List EnumValueDescriptorProto
  deriving DecidableEq, Repr

/-- The part of `descriptor.DescriptorProto` the generator reads: a message
owns its fields, its nested messages, its nested enums and its oneof
declarations. -/
inductive DescriptorProto where
  | mk (name : String) (field : List FieldDescriptorProto)
      (nestedType : List DescriptorProto) (enumType : List EnumDescriptorProto)
      (oneofDecl : List OneofDescriptorProto) : DescriptorProto

namespace DescriptorProto

/-- The getter `GetName`. -/
def name : DescriptorProto → String
  | .mk n _ _ _ _ => n

/-- The member `Field`. -/
def field : DescriptorProto → List FieldDescriptorProto
  | .mk _ f _ _ _ => f

/-- The member `NestedType`. -/
def nestedType : DescriptorProto → List DescriptorProto
  | .mk _ _ ns _ _ => ns

/-- The member `EnumType`. -/
def enumType : DescriptorProto → List EnumDescriptorProto
  | .mk _ _ _ es _ => es

/-- The member `OneofDecl`. -/
def oneofDecl : DescriptorProto → List OneofDescriptorProto
  | .mk _ _ _ _ os => os

end DescriptorProto

/-- The part of `descriptor.FileDescriptorProto` the generator reads. -/
structure FileDescriptorProto where
  name : String
  messageType : List DescriptorProto
  enumType : List EnumDescriptorProto

/-- The part of `plugin.CodeGeneratorRequest` the generator reads. -/
structure CodeGeneratorRequest where
  fileToGenerate : List String
  protoFile : List FileDescriptorProto

/-- One `plugin.CodeGeneratorResponse_File`: an output path and its text. -/
structure CodeGeneratorResponse_File where
  name : String
  content : String
  deriving DecidableEq, Repr

/-- The `plugin.CodeGeneratorResponse`. -/
structure CodeGeneratorResponse where
  file : List CodeGeneratorResponse_File
  deriving DecidableEq, Repr

/-- The `generator` struct (the type registry `reg` is never read). -/
structure generator where
  version : String
  genReq : CodeGeneratorRequest

/-! ## The output buffer -/

/-- The `bytes.Buffer`, as the list of lines printed so far. -/
abbrev Buffer := List String

/-- The source's `print`: the formatted line is written, then a newline. -/
def print (buf : Buffer) (line : String) : Buffer := buf ++ [line]

/-- The text of the buffer, `b.String()`: every line with its newline. -/
def Buffer.String (b : Buffer) : String := String.join (b.map (fun l => l ++ "\n"))

/-! ## Name transformations -/

/-- The source's `filePath`. -/
def filePath (f : FileDescriptorProto) : String := f.name

/-- The source's `capitalize`. -/
def capitalize (s : String) : String := strings.Title (strings.ToLower s)

/-- The loop of `camelCase` and of `toHaskellFieldName`: the segment of
index 0 is lower-cased, every later one is lower-cased and title-cased. -/
def camelParts : Nat → List String → List String
  | _, [] => []
  | i, x :: xs =>
    (if i = 0 then strings.ToLower x else strings.Title (strings.ToLower x))
      :: camelParts (i + 1) xs

/-- The source's `camelCase`. -/
def camelCase (s : String) : String :=
  strings.Join (camelParts 0 (strings.Split s '_')) ""

/-- The source's `pascalCase`. -/
def pascalCase (s : String) : String :=
  strings.Join ((strings.Split s '_').map capitalize) ""

/-- The source's `packageFileName`. -/
def packageFileName (path : String) : String :=
  let ext := filepath.Ext path
  pascalCase (strings.TrimSuffix path ext)

/-- The source's `toHaskellFriendlyName`. -/
def toHaskellFriendlyName (s : String) : String :=
  if s = "type" then s ++ "'" else s

/-- The source's `toHaskellFieldName`. -/
def toHaskellFieldName (s : String) : String :=
  toHaskellFriendlyName (strings.Join (camelParts 0 (strings.Split s '_')) "")

/-- The source's `toHaskellType`: a reference that starts with a dot and has
more than one character resolves to its last dot-delimited segment; any
other reference has every segment title-cased. -/
def toHaskellType (s : String) : String :=
  if s.data.length > 1 ∧ s.data.take 1 = ['.'] then
    let parts := strings.Split s '.'
    parts.getLastD ""
  else
    strings.Join ((strings.Split s '.').map strings.Title) "."

/-- The name `%s` prints for a wire kind (`FieldDescriptorProto_Type.String`). -/
def FieldType.String : FieldType → String
  | .TYPE_DOUBLE => "TYPE_DOUBLE" | .TYPE_FLOAT => "TYPE_FLOAT"
  | .TYPE_INT64 => "TYPE_INT64" | .TYPE_UINT64 => "TYPE_UINT64"
  | .TYPE_INT32 => "TYPE_INT32" | .TYPE_FIXED64 => "TYPE_FIXED64"
  | .TYPE_FIXED32 => "TYPE_FIXED32" | .TYPE_BOOL => "TYPE_BOOL"
  | .TYPE_STRING => "TYPE_STRING" | .TYPE_GROUP => "TYPE_GROUP"
  | .TYPE_MESSAGE => "TYPE_MESSAGE" | .TYPE_BYTES => "TYPE_BYTES"
  | .TYPE_UINT32 => "TYPE_UINT32" | .TYPE_ENUM => "TYPE_ENUM"
  | .TYPE_SFIXED32 => "TYPE_SFIXED32" | .TYPE_SFIXED64 => "TYPE_SFIXED64"
  | .TYPE_SINT32 => "TYPE_SINT32" | .TYPE_SINT64 => "TYPE_SINT64"

/-- The source's `Fail`: the message is logged and the process exits with
status 1; the exit is the error of an `Except`. -/
def Fail {α : Type} (msgs : List String) : Except String α :=
  Except.error (strings.Join msgs " ")

/-- The source's `toType`. -/
def toType (field : FieldDescriptorProto) (pfx : String) (suffix : String) :
    Except String String := do
  let label := field.label
  let res ← (match field.type with
    | .TYPE_INT32 => pure "Int32"
    | .TYPE_INT64 => pure "Int64"
    | .TYPE_SINT32 => pure "Int32"
    | .TYPE_SINT64 => pure "Int64"
    | .TYPE_SFIXED32 => pure (pfx ++ "Signed Int32" ++ suffix)
    | .TYPE_SFIXED64 => pure (pfx ++ "Signed Int64" ++ suffix)
    | .TYPE_UINT32 => pure "Word32"
    | .TYPE_UINT64 => pure "Word64"
    | .TYPE_FIXED32 => pure (pfx ++ "Fixed Word32" ++ suffix)
    | .TYPE_FIXED64 => pure (pfx ++ "Fixed Word64" ++ suffix)
    | .TYPE_STRING => pure "Text"
    | .TYPE_BYTES => pure "ByteString"
    | .TYPE_BOOL => pure "Bool"
    | .TYPE_FLOAT => pure "Float"
    | .TYPE_DOUBLE => pure "Double"
    | .TYPE_MESSAGE => pure (toHaskellType field.typeName)
    | .TYPE_ENUM => pure (toHaskellType field.typeName)
    | .TYPE_GROUP => Fail ["no mapping for type " ++ field.type.String] :
      Except String String)
  if label = .LABEL_REPEATED then
    if field.type = .TYPE_MESSAGE then
      pure ("Vector " ++ res)
    else
      pure ("Vector " ++ res)
  else if field.type = .TYPE_MESSAGE then
    pure (pfx ++ "Maybe " ++ res ++ suffix)
  else
    pure res

/-! ## Field classification -/

/-- The source's `aField`; a member the constructing function does not set
holds Go's zero value. -/
structure aField where
  sep : String := ""
  lensFieldName : String := ""
  fieldName : String := ""
  isMaybeField : Bool := false
  rawFieldName : String := ""
  deriving DecidableEq, Repr

/-- The source's `fieldsForOneOfInstance`.  The loop state is the pair
`(fields, first)`. -/
def fieldsForOneOfInstance (message : DescriptorProto) (firstSep : String)
    (restSep : String) : List aField :=
  let st := message.field.foldl
    (fun (st : List aField × Bool) field =>
      let fieldName := pascalCase field.name
      if field.oneofIndex ≠ none then
        let sep := if st.2 then firstSep else restSep
        let isMaybeField :=
          match field.type with
          | .TYPE_MESSAGE => if field.label ≠ .LABEL_REPEATED then true else false
          | _ => false
        (st.1 ++ [{ sep := sep, fieldName := fieldName, isMaybeField := isMaybeField,
                    rawFieldName := field.name }], false)
      else st)
    (([] : List aField), true)
  st.1

/-- The source's `fieldsForMessageInstance`.  The loop state is the pair
`(fields, first)`, shared by the two loops. -/
def fieldsForMessageInstance (message : DescriptorProto) (firstSep : String)
    (restSep : String) : List aField :=
  let st := message.field.foldl
    (fun (st : List aField × Bool) field =>
      if field.oneofIndex = none then
        let fieldName := toHaskellFieldName field.name
        let sep := if st.2 then firstSep else restSep
        let wrapped :=
          match field.type with
          | .TYPE_MESSAGE => if field.label ≠ .LABEL_REPEATED then true else false
          | _ => false
        let lensFieldName := if wrapped then "maybe'" ++ fieldName else fieldName
        let isMaybeField := wrapped
        (st.1 ++ [{ sep := sep, fieldName := fieldName, isMaybeField := isMaybeField,
                    lensFieldName := lensFieldName }], false)
      else st)
    (([] : List aField), true)
  let st := message.oneofDecl.foldl
    (fun (st : List aField × Bool) oneof =>
      let fieldName := toHaskellFieldName oneof.name
      let sep := if st.2 then firstSep else restSep
      (st.1 ++ [{ sep := sep, fieldName := fieldName, isMaybeField := true,
                  lensFieldName := "maybe'" ++ fieldName }], false))
    st
  st.1

/-! ## Emitters -/

/-- The source's `printToFromJSONInstances`. -/
def printToFromJSONInstances (b : Buffer) (n : String) : Buffer :=
  let b := print b ""
  let b := print b ("instance FromJSON " ++ n ++ " where")
  let b := print b "  parseJSON = parseJSONPB"
  let b := print b ""
  let b := print b ("instance ToJSON " ++ n ++ " where")
  let b := print b "  toJSON = toAesonValue"
  let b := print b "  toEncoding = toAesonEncoding"
  b

/-- The source's `generateOneof`. -/
def generateOneof (b : Buffer) (message : DescriptorProto)
    (oneof : OneofDescriptorProto) : Buffer :=
  let outerName := strings.Title message.name
  let oneofName := oneof.name
  let n := outerName ++ "'" ++ pascalCase oneofName
  let b := print b ""
  let b := print b ("instance FromJSONPB " ++ n ++ " where")
  let b := print b ("  parseJSONPB = A.withObject \"" ++ n ++ "\" $ \\obj -> mconcat")
  let b := print b "    ["
  let b := (fieldsForOneOfInstance message " " ",").foldl
    (fun b f =>
      print b ("    " ++ f.sep ++ " " ++ outerName ++ "'" ++ f.fieldName
        ++ " <$> parseField obj \"" ++ f.rawFieldName ++ "\""))
    b
  let b := print b "    ]"
  let b := print b ""
  let b := print b ("instance ToJSONPB " ++ n ++ " where")
  let b := (fieldsForOneOfInstance message " " ",").foldl
    (fun b f =>
      let x := if f.isMaybeField then "Just x" else "x"
      print b ("  toJSONPB (" ++ outerName ++ "'" ++ f.fieldName ++ " x) = object [ \""
        ++ f.rawFieldName ++ "\" .= " ++ x ++ " ]"))
    b
  let b := (fieldsForOneOfInstance message " " ",").foldl
    (fun b f =>
      let x := if f.isMaybeField then "Just x" else "x"
      print b ("  toEncodingPB (" ++ outerName ++ "'" ++ f.fieldName ++ " x) = pairs [ \""
        ++ f.rawFieldName ++ "\" .= " ++ x ++ " ]"))
    b
  printToFromJSONInstances b n

/-- The source's `generateEnum`; `parent` is `none` for a top-level enum. -/
def generateEnum (b : Buffer) (enum : EnumDescriptorProto)
    (parent : Option DescriptorProto) : Buffer :=
  let n := enum.name
  let qualifiedName :=
    match parent with
    | some p => p.name ++ "'" ++ n
    | none => n
  let b := print b ""
  let b := print b ("instance FromJSONPB " ++ qualifiedName ++ " where")
  let b := enum.value.foldl
    (fun b value =>
      let enum := strings.ToUpper value.name
      let v :=
        match parent with
        | some p => p.name ++ "'" ++ strings.ToUpper value.name
        | none => strings.ToUpper value.name
      print b ("  parseJSONPB (JSONPB.String \"" ++ enum ++ "\") = pure " ++ v))
    b
  let b := print b ("  parseJSONPB x = typeMismatch \"" ++ n ++ "\" x")
  let b := print b ""
  let b := print b ("instance ToJSONPB " ++ qualifiedName ++ " where")
  let b := print b "  toJSONPB x _ = A.String . T.toUpper . T.pack $ show x"
  let b := print b "  toEncodingPB x _ = E.text . T.toUpper . T.pack  $ show x"
  printToFromJSONInstances b qualifiedName

mutual

/-- The source's `generateMessage`.  (The slice `oneofs` the source fills in
its first loop is never read and is left out.) -/
def generateMessage (b : Buffer) : DescriptorProto → Buffer
  | .mk name field nestedType enumType oneofDecl =>
    let message := DescriptorProto.mk name field nestedType enumType oneofDecl
    let b := oneofDecl.foldl (fun b oneof => generateOneof b message oneof) b
    let n := name
    let noFields := field.length == 0
    let b := print b ""
    let b := print b ("instance FromJSONPB " ++ n ++ " where")
    let b :=
      if noFields then
        print b ("  parseJSONPB = withObject \"" ++ n ++ "\" $ \\_ -> pure defMessage")
      else
        let b := print b ("  parseJSONPB = withObject \"" ++ n ++ "\" $ \\obj -> do")
        let b := (fieldsForMessageInstance message "<$>" "<*>").foldl
          (fun b f =>
            if f.isMaybeField then
              print b ("    " ++ f.fieldName ++ "' <- obj A..:? \"" ++ f.fieldName ++ "\"")
            else
              print b ("    " ++ f.fieldName ++ "' <- obj .: \"" ++ f.fieldName ++ "\""))
          b
        let b := print b "    pure $ defMessage"
        (fieldsForMessageInstance message "<$>" "<*>").foldl
          (fun b f => print b ("      & P." ++ f.lensFieldName ++ " .~ " ++ f.fieldName ++ "'"))
          b
    let b := print b ""
    let b := print b ("instance ToJSONPB " ++ n ++ " where")
    let b :=
      if noFields then
        print b "  toJSONPB _ = object []"
      else
        let b := print b "  toJSONPB x = object"
        let b := (fieldsForMessageInstance message "[" ",").foldl
          (fun b f =>
            print b ("    " ++ f.sep ++ " \"" ++ f.fieldName ++ "\" .= (x^." ++ f.lensFieldName
              ++ ")"))
          b
        print b "    ]"
    let b :=
      if noFields then
        print b "  toEncodingPB _ = pairs []"
      else
        let b := print b "  toEncodingPB x = pairs"
        let b := (fieldsForMessageInstance message "[" ",").foldl
          (fun b f =>
            print b ("    " ++ f.sep ++ " \"" ++ f.fieldName ++ "\" .= (x^." ++ f.lensFieldName
              ++ ")"))
          b
        print b "    ]"
    let b := printToFromJSONInstances b n
    let b := generateMessages b nestedType
    enumType.foldl (fun b enum => generateEnum b enum (some message)) b

/-- The loop `for _, nested := range message.NestedType` of
`generateMessage` (and the loop over `file.MessageType`). -/
def generateMessages (b : Buffer) : List DescriptorProto → Buffer
  | [] => b
  | nested :: rest => generateMessages (generateMessage b nested) rest

end

/-- The source's `generateHaskellCode`. -/
def generator.generateHaskellCode (g : generator) (file : FileDescriptorProto) : String :=
  let b : Buffer := []
  let b := print b ("-- Code generated by protoc-gen-jsonpb_haskell " ++ g.version
    ++ ", DO NOT EDIT.")
  let b := print b "\x7b-# LANGUAGE OverloadedStrings #-\x7d"
  let b := print b
    "\x7b-# OPTIONS_GHC -Wno-orphans -Wno-unused-imports -Wno-missing-export-lists #-\x7d"
  let moduleName := packageFileName (filePath file)
  let b := print b ("module Proto." ++ moduleName ++ "_JSON where")
  let b := print b ""
  let b := print b "import           Prelude(($), (.), (<$>), pure, show, Maybe(..))"
  let b := print b ""
  let b := print b "import           Data.ProtoLens.Runtime.Lens.Family2 ((^.), (.~), (&))"
  let b := print b "import           Data.Monoid (mconcat)"
  let b := print b "import           Control.Monad (msum)"
  let b := print b "import           Data.ProtoLens (defMessage)"
  let b := print b "import qualified Data.Aeson as A"
  let b := print b "import qualified Data.Aeson.Encoding as E"
  let b := print b "import           Data.ProtoLens.JSONPB as JSONPB"
  let b := print b "import qualified Data.Text as T"
  let b := print b ""
  let b := print b ("import           Proto." ++ moduleName ++ " as P")
  let b := print b ("import           Proto." ++ moduleName ++ "_Fields as P")
  let b := generateMessages b file.messageType
  let b := file.enumType.foldl (fun b enum => generateEnum b enum none) b
  b.String

/-- The source's `protoFilesToGenerate`: for every requested name, in
request order, every file of the request whose name matches. -/
def generator.protoFilesToGenerate (g : generator) : List FileDescriptorProto :=
  g.genReq.fileToGenerate.foldl
    (fun files name =>
      g.genReq.protoFile.foldl
        (fun files f => if f.name = name then files ++ [f] else files)
        files)
    []

/-- The source's `Generate`. -/
def generator.Generate (g : generator) : CodeGeneratorResponse :=
  g.protoFilesToGenerate.foldl
    (fun resp f =>
      let jsonpbFileName := "Proto/" ++ packageFileName (filePath f) ++ "_JSON.hs"
      let haskellCode := g.generateHaskellCode f
      { file := resp.file ++ [{ name := jsonpbFileName, content := haskellCode }] })
    { file := [] }

/-! ## Vocabulary of the statements -/

/-- The presence rule of both classifiers: the kind is MESSAGE and the label
is not repeated. -/
def presenceWrapped (field : FieldDescriptorProto) : Bool :=
  decide (field.type = .TYPE_MESSAGE) && decide (field.label ≠ .LABEL_REPEATED)

/-- The fields of a message that carry no oneof index, in declared order. -/
def plainFields (message : DescriptorProto) : List FieldDescriptorProto :=
  message.field.filter (fun field => decide (field.oneofIndex = none))

/-- The fields of a message that carry a oneof index, in declared order. -/
def oneofFields (message : DescriptorProto) : List FieldDescriptorProto :=
  message.field.filter (fun field => decide (field.oneofIndex ≠ none))

/-- The entry `fieldsForMessageInstance` builds for a plain field, before
its separator is set. -/
def plainEntry (field : FieldDescriptorProto) : aField :=
  { fieldName := toHaskellFieldName field.name
    isMaybeField := presenceWrapped field
    lensFieldName :=
      if presenceWrapped field then "maybe'" ++ toHaskellFieldName field.name
      else toHaskellFieldName field.name }

/-- The synthetic entry `fieldsForMessageInstance` builds for a oneof group,
before its separator is set. -/
def groupEntry (oneof : OneofDescriptorProto) : aField :=
  { fieldName := toHaskellFieldName oneof.name
    isMaybeField := true
    lensFieldName := "maybe'" ++ toHaskellFieldName oneof.name }

/-- The entry `fieldsForOneOfInstance` builds for a oneof member, before its
separator is set. -/
def memberEntry (field : FieldDescriptorProto) : aField :=
  { fieldName := pascalCase field.name
    isMaybeField := presenceWrapped field
    rawFieldName := field.name }

/-- The separators along a list of entries: `firstSep` on the head when
`first` holds, `restSep` everywhere else. -/
def setSeps (first : Bool) (firstSep restSep : String) : List aField → List aField
  | [] => []
  | f :: fs =>
    { f with sep := if first then firstSep else restSep } :: setSeps false firstSep restSep fs

/-- The read line of the decode block for one classified entry. -/
def decodeReadLine (f : aField) : String :=
  if f.isMaybeField then
    "    " ++ f.fieldName ++ "' <- obj A..:? \"" ++ f.fieldName ++ "\""
  else
    "    " ++ f.fieldName ++ "' <- obj .: \"" ++ f.fieldName ++ "\""

/-- The assignment line of the decode block for one classified entry. -/
def decodeAssignLine (f : aField) : String :=
  "      & P." ++ f.lensFieldName ++ " .~ " ++ f.fieldName ++ "'"

/-- The key/value line of either encode block for one classified entry. -/
def encodeLine (f : aField) : String :=
  "    " ++ f.sep ++ " \"" ++ f.fieldName ++ "\" .= (x^." ++ f.lensFieldName ++ ")"

/-- The lines `generateMessage` prints for the message itself, between the
loop over the oneof groups and the loops over the nested declarations. -/
def messageInstanceLines (message : DescriptorProto) : List String :=
  let n := message.name
  ["", "instance FromJSONPB " ++ n ++ " where"]
  ++ (if message.field.length == 0 then
        ["  parseJSONPB = withObject \"" ++ n ++ "\" $ \\_ -> pure defMessage"]
      else
        ["  parseJSONPB = withObject \"" ++ n ++ "\" $ \\obj -> do"]
        ++ (fieldsForMessageInstance message "<$>" "<*>").map decodeReadLine
        ++ ["    pure $ defMessage"]
        ++ (fieldsForMessageInstance message "<$>" "<*>").map decodeAssignLine)
  ++ ["", "instance ToJSONPB " ++ n ++ " where"]
  ++ (if message.field.length == 0 then ["  toJSONPB _ = object []"]
      else
        ["  toJSONPB x = object"]
        ++ (fieldsForMessageInstance message "[" ",").map encodeLine ++ ["    ]"])
  ++ (if message.field.length == 0 then ["  toEncodingPB _ = pairs []"]
      else
        ["  toEncodingPB x = pairs"]
        ++ (fieldsForMessageInstance message "[" ",").map encodeLine ++ ["    ]"])
  ++ printToFromJSONInstances [] n

/-- One decode alternative of a oneof instance. -/
def oneofDecodeLine (outerName sep : String) (field : FieldDescriptorProto) : String :=
  "    " ++ sep ++ " " ++ outerName ++ "'" ++ pascalCase field.name
    ++ " <$> parseField obj \"" ++ field.name ++ "\""

/-- One `toJSONPB` case of a oneof instance. -/
def oneofToJSONLine (outerName : String) (field : FieldDescriptorProto) : String :=
  "  toJSONPB (" ++ outerName ++ "'" ++ pascalCase field.name ++ " x) = object [ \""
    ++ field.name ++ "\" .= " ++ (if presenceWrapped field then "Just x" else "x") ++ " ]"

/-- One `toEncodingPB` case of a oneof instance. -/
def oneofToEncodingLine (outerName : String) (field : FieldDescriptorProto) : String :=
  "  toEncodingPB (" ++ outerName ++ "'" ++ pascalCase field.name ++ " x) = pairs [ \""
    ++ field.name ++ "\" .= " ++ (if presenceWrapped field then "Just x" else "x") ++ " ]"

/-- The decode alternatives of a member list: the first one opens with a
blank, every later one with a comma. -/
def oneofDecodeLines (outerName : String) : List FieldDescriptorProto → List String
  | [] => []
  | field :: rest =>
    oneofDecodeLine outerName " " field :: rest.map (oneofDecodeLine outerName ",")

/-- The seven lines of the two bridging instances for the type `n`. -/
def bridgingLines (n : String) : List String :=
  ["", "instance FromJSON " ++ n ++ " where", "  parseJSON = parseJSONPB",
   "", "instance ToJSON " ++ n ++ " where", "  toJSON = toAesonValue",
   "  toEncoding = toAesonEncoding"]

/-- The prefix of an enum constructor: the owning message and a prime for a
nested enum, nothing for a top-level one. -/
def enumQualifier : Option DescriptorProto → String
  | some p => p.name ++ "'"
  | none => ""

/-! ## Concrete inputs -/

/-- The field `string user_id = 1;`. -/
def userIdField : FieldDescriptorProto :=
  { name := "user_id", label := .LABEL_OPTIONAL, type := .TYPE_STRING, typeName := "",
    oneofIndex := none }

/-- The message `message M { string user_id = 1; }`. -/
def userIdMessage : DescriptorProto := .mk "M" [userIdField] [] [] []

/-- The message `message M { oneof a { string x = 1; } oneof b { string y = 2; } }`. -/
def twoGroupMessage : DescriptorProto :=
  .mk "M"
    [{ name := "x", label := .LABEL_OPTIONAL, type := .TYPE_STRING, typeName := "",
       oneofIndex := some 0 },
     { name := "y", label := .LABEL_OPTIONAL, type := .TYPE_STRING, typeName := "",
       oneofIndex := some 1 }]
    [] [] [{ name := "a" }, { name := "b" }]

/-- The message `message Empty {}`. -/
def emptyMessage : DescriptorProto := .mk "Empty" [] [] [] []

/-- The message `message shape { oneof kind { string label_text = 1; Circle circle = 2; } }`. -/
def shapeMessage : DescriptorProto :=
  .mk "shape"
    [{ name := "label_text", label := .LABEL_OPTIONAL, type := .TYPE_STRING, typeName := "",
       oneofIndex := some 0 },
     { name := "circle", label := .LABEL_OPTIONAL, type := .TYPE_MESSAGE, typeName := ".Circle",
       oneofIndex := some 0 }]
    [] [] [{ name := "kind" }]

/-- The request for `a_b.proto`, a file without declarations. -/
def snakeFileGenerator : generator :=
  generator.mk "v0"
    (CodeGeneratorRequest.mk ["a_b.proto"] [FileDescriptorProto.mk "a_b.proto" [] []])

/-- The module name as C6 words it: the path with its extension stripped,
then title-cased. -/
def packageFileName_titleCased (path : String) : String :=
  strings.Title (strings.TrimSuffix path (filepath.Ext path))

/-- The lines `generateHaskellCode` prints before the declarations of the
file: the banner with the version, the pragmas, the module line and the
imports, for the module name `moduleName`. -/
def headerLines (version moduleName : String) : List String :=
  ["-- Code generated by protoc-gen-jsonpb_haskell " ++ version ++ ", DO NOT EDIT.",
   "\x7b-# LANGUAGE OverloadedStrings #-\x7d",
   "\x7b-# OPTIONS_GHC -Wno-orphans -Wno-unused-imports -Wno-missing-export-lists #-\x7d",
   "module Proto." ++ moduleName ++ "_JSON where",
   "",
   "import           Prelude(($), (.), (<$>), pure, show, Maybe(..))",
   "",
   "import           Data.ProtoLens.Runtime.Lens.Family2 ((^.), (.~), (&))",
   "import           Data.Monoid (mconcat)",
   "import           Control.Monad (msum)",
   "import           Data.ProtoLens (defMessage)",
   "import qualified Data.Aeson as A",
   "import qualified Data.Aeson.Encoding as E",
   "import           Data.ProtoLens.JSONPB as JSONPB",
   "import qualified Data.Text as T",
   "",
   "import           Proto." ++ moduleName ++ " as P",
   "import           Proto." ++ moduleName ++ "_Fields as P"]

/-- The table of the first `switch` of `toType`: the base type expression
of a wire kind, `none` for the kind without a mapping. -/
def baseType (field : FieldDescriptorProto) (pfx suffix : String) : Option String :=
  match field.type with
  | .TYPE_INT32 => some "Int32"
  | .TYPE_INT64 => some "Int64"
  | .TYPE_SINT32 => some "Int32"
  | .TYPE_SINT64 => some "Int64"
  | .TYPE_SFIXED32 => some (pfx ++ "Signed Int32" ++ suffix)
  | .TYPE_SFIXED64 => some (pfx ++ "Signed Int64" ++ suffix)
  | .TYPE_UINT32 => some "Word32"
  | .TYPE_UINT64 => some "Word64"
  | .TYPE_FIXED32 => some (pfx ++ "Fixed Word32" ++ suffix)
  | .TYPE_FIXED64 => some (pfx ++ "Fixed Word64" ++ suffix)
  | .TYPE_STRING => some "Text"
  | .TYPE_BYTES => some "ByteString"
  | .TYPE_BOOL => some "Bool"
  | .TYPE_FLOAT => some "Float"
  | .TYPE_DOUBLE => some "Double"
  | .TYPE_MESSAGE => some (toHaskellType field.typeName)
  | .TYPE_ENUM => some (toHaskellType field.typeName)
  | .TYPE_GROUP => none

/-- The field `repeated Point points = 1;`, of the message type `.geo.Point`. -/
def pointsField : FieldDescriptorProto :=
  { name := "points", label := .LABEL_REPEATED, type := .TYPE_MESSAGE, typeName := ".geo.Point",
    oneofIndex := none }

/-- The field `optional sfixed32 delta = 1;`. -/
def deltaField : FieldDescriptorProto :=
  { name := "delta", label := .LABEL_OPTIONAL, type := .TYPE_SFIXED32, typeName := "",
    oneofIndex := none }

/-- The field `optional group Legacy = 1 { }`, of the wire kind GROUP. -/
def legacyField : FieldDescriptorProto :=
  { name := "legacy", label := .LABEL_OPTIONAL, type := .TYPE_GROUP, typeName := ".G.Legacy",
    oneofIndex := none }

/-- The message `message G { optional group Legacy = 1 { } }`. -/
def groupMessage : DescriptorProto :=
  .mk "G" [legacyField] [.mk "Legacy" [] [] [] []] [] []

/-- The request for `g.proto`, the file that declares `G`. -/
def groupFileGenerator : generator :=
  generator.mk "v0" (CodeGeneratorRequest.mk ["g.proto"] [FileDescriptorProto.mk "g.proto" [groupMessage] []])


/-- The message `message Orphan { string x = 1; }` whose field carries the
oneof index 0 although the message declares no oneof group. -/
def orphanMessage : DescriptorProto :=
  .mk "Orphan"
    [{ name := "x", label := .LABEL_OPTIONAL, type := .TYPE_STRING, typeName := "",
       oneofIndex := some 0 }]
    [] [] []

/-- The message `message Pair { Point origin = 1; oneof extra { string note = 2; } }`. -/
def pairMessage : DescriptorProto :=
  .mk "Pair"
    [{ name := "origin", label := .LABEL_OPTIONAL, type := .TYPE_MESSAGE, typeName := ".Point",
       oneofIndex := none },
     { name := "note", label := .LABEL_OPTIONAL, type := .TYPE_STRING, typeName := "",
       oneofIndex := some 0 }]
    [] [] [{ name := "extra" }]


/-- A character of an ASCII identifier: a digit, a letter or the underscore. -/
def identChar (c : Char) : Bool := c.isDigit || c.isLower || c.isUpper || c == '_'

/-- An ASCII identifier: every character is a digit, a letter or the
underscore. -/
def isIdentifier (s : String) : Bool := s.data.all identChar

/-- A segment capitalized: every character lower-cased, then the first one
upper-cased. -/
def capitalizeChars (seg : List Char) : List Char :=
  match seg.map Char.toLower with
  | [] => []
  | c :: cs => c.toUpper :: cs

/-- The characters of the lower-camel form of an identifier: the first
segment lower-cased, every later segment capitalized. -/
def camelChars (s : String) : List Char :=
  match strings.splitChars '_' s.data with
  | [] => []
  | first :: rest => first.map Char.toLower ++ rest.flatMap capitalizeChars

/-- Title-casing of a segment as C17 words it: the first character
upper-cased, the remaining characters as they are. -/
def titleCaseChars (seg : List Char) : List Char :=
  match seg with
  | [] => []
  | c :: cs => c.toUpper :: cs

/-- The Pascal form as C17 words it: the title-cased segments, concatenated. -/
def pascalCase_titleCased (s : String) : String :=
  String.mk ((strings.splitChars '_' s.data).flatMap titleCaseChars)

/-- The field name as C16 words it: the first segment lower-cased, every
later segment title-cased, the marker appended when the concatenation is
the reserved word. -/
def toHaskellFieldName_titleCased (s : String) : String :=
  let joined :=
    String.mk (match strings.splitChars '_' s.data with
      | [] => []
      | first :: rest => first.map Char.toLower ++ rest.flatMap titleCaseChars)
  if joined = "type" then joined ++ "'" else joined

/-- The resolution of a type reference as C18 words it for a reference
that begins with a dot: the final dot-delimited segment. -/
def lastSegment (s : String) : String := (strings.Split s '.').getLastD ""


/-- A line of the generated text that starts with "instance ". -/
def startsInstance (line : String) : Bool := "instance ".data.isPrefixOf line.data

/-- A name without a newline. -/
def noNewline (s : String) : Bool := !s.data.contains '\n'

/-- The name of an enum and the names of its values hold no newline. -/
def EnumDescriptorProto.namesNoNewline (enum : EnumDescriptorProto) : Bool :=
  noNewline enum.name && enum.value.all (fun value => noNewline value.name)

mutual

/-- The names of a message hold no newline: its own name, the names of its
fields and oneof groups, and the names in its nested declarations. -/
def DescriptorProto.namesNoNewline : DescriptorProto → Bool
  | .mk name field nestedType enumType oneofDecl =>
    noNewline name && field.all (fun f => noNewline f.name)
      && oneofDecl.all (fun oneof => noNewline oneof.name)
      && enumType.all EnumDescriptorProto.namesNoNewline
      && namesNoNewlineList nestedType

/-- The names of every message of a list hold no newline. -/
def namesNoNewlineList : List DescriptorProto → Bool
  | [] => true
  | message :: rest => message.namesNoNewline && namesNoNewlineList rest

end

/-- The names of a file hold no newline: its path and the names in its
declarations. -/
def FileDescriptorProto.namesNoNewline (file : FileDescriptorProto) : Bool :=
  noNewline file.name && namesNoNewlineList file.messageType
    && file.enumType.all EnumDescriptorProto.namesNoNewline

mutual

/-- The number of declarations of a message: the message, its oneof groups,
its nested enums, and the declarations of its nested messages. -/
def DescriptorProto.declCount : DescriptorProto → Nat
  | .mk _ _ nestedType enumType oneofDecl =>
    1 + oneofDecl.length + enumType.length + declCountList nestedType

/-- The number of declarations of a list of messages. -/
def declCountList : List DescriptorProto → Nat
  | [] => 0
  | message :: rest => message.declCount + declCountList rest

end

/-- The number of messages, oneof groups and enums of a file, counted
through the nesting. -/
def FileDescriptorProto.declCount (file : FileDescriptorProto) : Nat :=
  declCountList file.messageType + file.enumType.length

theorem print_eq (b : Buffer) (line : String) : print b line = b ++ [line] := rfl

/-- A loop whose body appends `g a` to the buffer appends the `g a` in order. -/
theorem foldl_emit {α β : Type} (step : List β → α → List β) (g : α → List β)
    (h : ∀ b a, step b a = b ++ g a) (l : List α) (b : List β) :
    l.foldl step b = b ++ l.flatMap g := by
  induction l generalizing b with
  | nil => simp
  | cons a as ih => simp [List.foldl_cons, h, ih, List.append_assoc]

theorem flatMap_single {α β : Type} (g : α → β) (l : List α) :
    l.flatMap (fun a => [g a]) = l.map g := by
  induction l with
  | nil => rfl
  | cons a as ih => simp [ih]

/-- A loop whose body prints one line per element. -/
theorem foldl_print {α : Type} (g : α → String) (l : List α) (b : Buffer) :
    l.foldl (fun b a => print b (g a)) b = b ++ l.map g := by
  have h := foldl_emit (fun b a => print b (g a)) (fun a => [g a]) (fun _ _ => rfl) l b
  rw [flatMap_single] at h
  exact h

/-! ## The classifiers in closed form -/

theorem wrapped_match (field : FieldDescriptorProto) :
    (match field.type with
      | .TYPE_MESSAGE => if field.label ≠ .LABEL_REPEATED then true else false
      | _ => false) = presenceWrapped field := by
  unfold presenceWrapped
  cases field.type <;> cases field.label <;> rfl

theorem setSeps_append (first : Bool) (fs rs : String) (l₁ l₂ : List aField) :
    setSeps first fs rs (l₁ ++ l₂)
      = setSeps first fs rs l₁ ++ setSeps (first && l₁.isEmpty) fs rs l₂ := by
  induction l₁ generalizing first with
  | nil => simp [setSeps]
  | cons f l ih => simp [setSeps, ih]

theorem length_setSeps (first : Bool) (fs rs : String) (l : List aField) :
    (setSeps first fs rs l).length = l.length := by
  induction l generalizing first with
  | nil => rfl
  | cons f l ih => simp [setSeps, ih]

/-- The classifying loop: the kept elements are appended in order, the
separator of each chosen by the flag `first`, which drops at the first kept
element. -/
theorem foldl_classify {α : Type} (p : α → Prop) [DecidablePred p] (mk : α → aField)
    (fs rs : String) (l : List α) (acc : List aField) (first : Bool) :
    l.foldl (fun (st : List aField × Bool) a =>
        if p a then
          (st.1 ++ [{ mk a with sep := if st.2 then fs else rs }], false)
        else st) (acc, first)
      = (acc ++ setSeps first fs rs ((l.filter (fun a => decide (p a))).map mk),
          first && (l.filter (fun a => decide (p a))).isEmpty) := by
  induction l generalizing acc first with
  | nil => simp [setSeps]
  | cons a as ih =>
    by_cases h : p a
    · simp [List.foldl_cons, h, ih, setSeps, List.append_assoc]
    · simp [List.foldl_cons, h, ih]

theorem fieldsForOneOfInstance_eq (message : DescriptorProto) (fs rs : String) :
    fieldsForOneOfInstance message fs rs
      = setSeps true fs rs ((oneofFields message).map memberEntry) := by
  have h := foldl_classify (fun f : FieldDescriptorProto => f.oneofIndex ≠ none)
    memberEntry fs rs message.field [] true
  have e : fieldsForOneOfInstance message fs rs
      = (message.field.foldl (fun (st : List aField × Bool) a =>
        if a.oneofIndex ≠ none then
          (st.1 ++ [{ memberEntry a with sep := if st.2 then fs else rs }], false)
        else st) ([], true)).1 := by
    unfold fieldsForOneOfInstance memberEntry
    simp only [wrapped_match]
  rw [e, h]
  simp [oneofFields]

theorem fieldsForMessageInstance_eq (message : DescriptorProto) (fs rs : String) :
    fieldsForMessageInstance message fs rs
      = setSeps true fs rs
          ((plainFields message).map plainEntry ++ message.oneofDecl.map groupEntry) := by
  have h₁ := foldl_classify (fun f : FieldDescriptorProto => f.oneofIndex = none)
    plainEntry fs rs message.field [] true
  have h₂ := fun acc first => foldl_classify (fun _ : OneofDescriptorProto => True)
    groupEntry fs rs message.oneofDecl acc first
  have e : fieldsForMessageInstance message fs rs
      = (message.oneofDecl.foldl (fun (st : List aField × Bool) a =>
          if True then
            (st.1 ++ [{ groupEntry a with sep := if st.2 then fs else rs }], false)
          else st)
        (message.field.foldl (fun (st : List aField × Bool) a =>
          if a.oneofIndex = none then
            (st.1 ++ [{ plainEntry a with sep := if st.2 then fs else rs }], false)
          else st) ([], true))).1 := by
    unfold fieldsForMessageInstance plainEntry groupEntry
    simp only [wrapped_match, if_true]
  rw [e, h₁, h₂, setSeps_append]
  have hm : ∀ l : List FieldDescriptorProto, (l.map plainEntry).isEmpty = l.isEmpty := by
    intro l; cases l <;> rfl
  simp [plainFields, hm]

theorem map_setSeps_false {β : Type} (g : aField → β) (fs rs : String) (l : List aField) :
    (setSeps false fs rs l).map g = l.map (fun f => g { f with sep := rs }) := by
  induction l with
  | nil => rfl
  | cons f l ih => simp [setSeps, ih]

theorem map_setSeps_erase {β : Type} (g : aField → β)
    (hg : ∀ (f : aField) (s : String), g { f with sep := s } = g f)
    (first : Bool) (fs rs : String) (l : List aField) :
    (setSeps first fs rs l).map g = l.map g := by
  induction l generalizing first with
  | nil => rfl
  | cons f l ih => simp [setSeps, ih, hg]

theorem sep_setSeps (fs rs : String) (l : List aField) (first : Bool)
    (i : Fin (setSeps first fs rs l).length) :
    ((setSeps first fs rs l).get i).sep = if i.val = 0 ∧ first = true then fs else rs := by
  induction l generalizing first with
  | nil => exact absurd i.isLt (by simp [setSeps])
  | cons f l ih =>
    obtain ⟨i, hi⟩ := i
    cases i with
    | zero => cases first <;> simp [setSeps]
    | succ j =>
      simp only [setSeps, List.length_cons, Nat.add_lt_add_iff_right] at hi
      have := ih false ⟨j, hi⟩
      simpa [setSeps] using this

/-! ## The emitters in closed form -/

theorem printToFromJSONInstances_eq (b : Buffer) (n : String) :
    printToFromJSONInstances b n = b ++ bridgingLines n := by
  simp [printToFromJSONInstances, print, bridgingLines]

theorem generateEnum_eq (b : Buffer) (enum : EnumDescriptorProto)
    (parent : Option DescriptorProto) :
    generateEnum b enum parent
      = b ++ (["", "instance FromJSONPB " ++ enumQualifier parent ++ enum.name ++ " where"]
        ++ enum.value.map (fun value =>
            "  parseJSONPB (JSONPB.String \"" ++ strings.ToUpper value.name ++ "\") = pure "
              ++ enumQualifier parent ++ strings.ToUpper value.name)
        ++ ["  parseJSONPB x = typeMismatch \"" ++ enum.name ++ "\" x",
            "",
            "instance ToJSONPB " ++ enumQualifier parent ++ enum.name ++ " where",
            "  toJSONPB x _ = A.String . T.toUpper . T.pack $ show x",
            "  toEncodingPB x _ = E.text . T.toUpper . T.pack  $ show x"]
        ++ bridgingLines (enumQualifier parent ++ enum.name)) := by
  unfold generateEnum
  simp only [foldl_print]
  simp only [printToFromJSONInstances_eq, print_eq]
  cases parent <;>
    simp [enumQualifier, List.append_assoc, String.append_assoc]

theorem generateEnum_append (b : Buffer) (enum : EnumDescriptorProto)
    (parent : Option DescriptorProto) :
    generateEnum b enum parent = b ++ generateEnum [] enum parent := by
  rw [generateEnum_eq b, generateEnum_eq []]
  simp

theorem oneofDecodeLines_eq (outerName : String) (l : List FieldDescriptorProto) :
    (setSeps true " " "," (l.map memberEntry)).map (fun f =>
        "    " ++ f.sep ++ " " ++ outerName ++ "'" ++ f.fieldName
          ++ " <$> parseField obj \"" ++ f.rawFieldName ++ "\"")
      = oneofDecodeLines outerName l := by
  cases l with
  | nil => rfl
  | cons fd rest =>
    simp only [List.map_cons, setSeps, map_setSeps_false, oneofDecodeLines, List.map_map]
    rfl

theorem generateOneof_eq (b : Buffer) (message : DescriptorProto)
    (oneof : OneofDescriptorProto) :
    generateOneof b message oneof
      = b ++ (["",
            "instance FromJSONPB " ++ strings.Title message.name ++ "'"
              ++ pascalCase oneof.name ++ " where",
            "  parseJSONPB = A.withObject \"" ++ strings.Title message.name ++ "'"
              ++ pascalCase oneof.name ++ "\" $ \\obj -> mconcat",
            "    ["]
        ++ oneofDecodeLines (strings.Title message.name) (oneofFields message)
        ++ ["    ]",
            "",
            "instance ToJSONPB " ++ strings.Title message.name ++ "'"
              ++ pascalCase oneof.name ++ " where"]
        ++ (oneofFields message).map (oneofToJSONLine (strings.Title message.name))
        ++ (oneofFields message).map (oneofToEncodingLine (strings.Title message.name))
        ++ bridgingLines (strings.Title message.name ++ "'" ++ pascalCase oneof.name)) := by
  unfold generateOneof
  simp only [foldl_print]
  simp only [printToFromJSONInstances_eq, print_eq, fieldsForOneOfInstance_eq,
    oneofDecodeLines_eq]
  simp only [map_setSeps_erase, implies_true]
  delta oneofToJSONLine oneofToEncodingLine
  simp only [List.map_map, List.append_assoc, String.append_assoc, memberEntry,
    Function.comp_def, List.cons_append, List.nil_append]

theorem generateOneof_append (b : Buffer) (message : DescriptorProto)
    (oneof : OneofDescriptorProto) :
    generateOneof b message oneof = b ++ generateOneof [] message oneof := by
  rw [generateOneof_eq b, generateOneof_eq []]
  simp

theorem foldl_generateOneof (message : DescriptorProto) (l : List OneofDescriptorProto)
    (b : Buffer) :
    l.foldl (fun b oneof => generateOneof b message oneof) b
      = b ++ l.flatMap (fun oneof => generateOneof [] message oneof) :=
  foldl_emit _ _ (fun b oneof => generateOneof_append b message oneof) l b

theorem foldl_generateEnum (parent : Option DescriptorProto) (l : List EnumDescriptorProto)
    (b : Buffer) :
    l.foldl (fun b enum => generateEnum b enum parent) b
      = b ++ l.flatMap (fun enum => generateEnum [] enum parent) :=
  foldl_emit _ _ (fun b enum => generateEnum_append b enum parent) l b

theorem foldl_decodeRead (l : List aField) (b : Buffer) :
    l.foldl (fun b f =>
        if f.isMaybeField then
          print b ("    " ++ f.fieldName ++ "' <- obj A..:? \"" ++ f.fieldName ++ "\"")
        else
          print b ("    " ++ f.fieldName ++ "' <- obj .: \"" ++ f.fieldName ++ "\"")) b
      = b ++ l.map decodeReadLine := by
  have h := foldl_emit (fun b (f : aField) =>
        if f.isMaybeField then
          print b ("    " ++ f.fieldName ++ "' <- obj A..:? \"" ++ f.fieldName ++ "\"")
        else
          print b ("    " ++ f.fieldName ++ "' <- obj .: \"" ++ f.fieldName ++ "\""))
      (fun f => [decodeReadLine f])
      (by intro b f; by_cases h : f.isMaybeField = true <;> simp [h, decodeReadLine, print_eq])
      l b
  rw [flatMap_single] at h
  exact h

/-- The body of `generateMessage` up to its two closing loops. -/
theorem generateMessage_unfold (b : Buffer) (name : String)
    (field : List FieldDescriptorProto) (nestedType : List DescriptorProto)
    (enumType : List EnumDescriptorProto) (oneofDecl : List OneofDescriptorProto) :
    generateMessage b (.mk name field nestedType enumType oneofDecl)
      = (generateMessages
          (b ++ oneofDecl.flatMap (fun oneof =>
                  generateOneof [] (.mk name field nestedType enumType oneofDecl) oneof)
             ++ messageInstanceLines (.mk name field nestedType enumType oneofDecl))
          nestedType)
        ++ enumType.flatMap (fun enum =>
            generateEnum [] enum (some (.mk name field nestedType enumType oneofDecl))) := by
  rw [generateMessage]
  simp only [foldl_generateOneof, foldl_generateEnum, foldl_decodeRead]
  simp only [foldl_print]
  simp only [printToFromJSONInstances_eq, print_eq]
  congr 2
  unfold messageInstanceLines
  simp only [printToFromJSONInstances_eq, DescriptorProto.name, DescriptorProto.field]
  by_cases h : (field.length == 0) = true
  · simp [h, List.append_assoc]
  · have e₁ : encodeLine = fun a => "    " ++ a.sep ++ " \"" ++ a.fieldName ++ "\" .= (x^."
        ++ a.lensFieldName ++ ")" := rfl
    have e₂ : decodeAssignLine
        = fun a => "      & P." ++ a.lensFieldName ++ " .~ " ++ a.fieldName ++ "'" := rfl
    simp [h, List.append_assoc, e₁, e₂]

mutual

/-- What `generateMessage` prints does not depend on the buffer it is
handed: the text is appended. -/
theorem generateMessage_append (b : Buffer) :
    ∀ message : DescriptorProto, generateMessage b message = b ++ generateMessage [] message
  | .mk name field nestedType enumType oneofDecl => by
    rw [generateMessage_unfold b, generateMessage_unfold [],
      generateMessages_append _ nestedType,
      generateMessages_append ([] ++ _ ++ _) nestedType]
    simp only [List.append_assoc, List.nil_append]

theorem generateMessages_append (b : Buffer) :
    ∀ l : List DescriptorProto, generateMessages b l = b ++ generateMessages [] l
  | [] => by simp [generateMessages]
  | message :: rest => by
    rw [generateMessages, generateMessages, generateMessages_append (generateMessage b message) rest,
      generateMessages_append (generateMessage [] message) rest, generateMessage_append b message]
    simp only [List.append_assoc]

end

theorem generateMessages_eq (b : Buffer) (l : List DescriptorProto) :
    generateMessages b l = b ++ l.flatMap (fun message => generateMessage [] message) := by
  induction l generalizing b with
  | nil => simp [generateMessages]
  | cons message rest ih =>
    rw [generateMessages, ih, generateMessage_append]
    simp [List.append_assoc]

/-- The text of a message: the instances of its oneof groups, its own
instances, the text of its nested messages, the text of its nested enums. -/
theorem generateMessage_eq (b : Buffer) (message : DescriptorProto) :
    generateMessage b message
      = b ++ (message.oneofDecl.flatMap (fun oneof => generateOneof [] message oneof)
        ++ messageInstanceLines message
        ++ message.nestedType.flatMap (fun nested => generateMessage [] nested)
        ++ message.enumType.flatMap (fun enum => generateEnum [] enum (some message))) := by
  cases message with
  | mk name field nestedType enumType oneofDecl =>
    rw [generateMessage_unfold, generateMessages_eq]
    simp only [DescriptorProto.oneofDecl, DescriptorProto.nestedType, DescriptorProto.enumType,
      List.append_assoc]

theorem mem_setSeps (fs rs : String) (e : aField) (l : List aField) (first : Bool)
    (h : e ∈ l) :
    ∃ sep, (sep = fs ∨ sep = rs) ∧ { e with sep := sep } ∈ setSeps first fs rs l := by
  induction l generalizing first with
  | nil => cases h
  | cons f l ih =>
    rcases List.mem_cons.mp h with rfl | h
    · cases first
      · exact ⟨rs, Or.inr rfl, by simp [setSeps]⟩
      · exact ⟨fs, Or.inl rfl, by simp [setSeps]⟩
    · obtain ⟨sep, hs, hm⟩ := ih false h
      exact ⟨sep, hs, by simp [setSeps, hm]⟩

theorem toHaskellFieldName_of_ne (s : String) (h : camelCase s ≠ "type") :
    toHaskellFieldName s = camelCase s := by
  unfold toHaskellFieldName toHaskellFriendlyName
  exact if_neg h

/-- The own block of a message is a contiguous part of its text. -/
theorem messageInstanceLines_contiguous (b : Buffer) (message : DescriptorProto) :
    messageInstanceLines message <:+: generateMessage b message := by
  rw [generateMessage_eq]
  exact ⟨b ++ message.oneofDecl.flatMap (fun oneof => generateOneof [] message oneof),
    message.nestedType.flatMap (fun nested => generateMessage [] nested)
      ++ message.enumType.flatMap (fun enum => generateEnum [] enum (some message)),
    by simp only [List.append_assoc]⟩

theorem mem_messageInstanceLines_read (message : DescriptorProto) (f : aField)
    (hne : message.field ≠ []) (hf : f ∈ fieldsForMessageInstance message "<$>" "<*>") :
    decodeReadLine f ∈ messageInstanceLines message := by
  have h0 : (message.field.length == 0) = false := by
    cases hm : message.field with
    | nil => exact absurd hm hne
    | cons a l => rfl
  unfold messageInstanceLines
  simp only [h0]
  have : decodeReadLine f ∈ (fieldsForMessageInstance message "<$>" "<*>").map decodeReadLine :=
    List.mem_map_of_mem _ hf
  simp [this]

theorem mem_messageInstanceLines_encode (message : DescriptorProto) (f : aField)
    (hne : message.field ≠ []) (hf : f ∈ fieldsForMessageInstance message "[" ",") :
    encodeLine f ∈ messageInstanceLines message := by
  have h0 : (message.field.length == 0) = false := by
    cases hm : message.field with
    | nil => exact absurd hm hne
    | cons a l => rfl
  unfold messageInstanceLines
  simp only [h0]
  have : encodeLine f ∈ (fieldsForMessageInstance message "[" ",").map encodeLine :=
    List.mem_map_of_mem _ hf
  simp [this]

/-! ## File selection and the response in closed form -/

theorem foldl_select (name : String) (l : List FileDescriptorProto)
    (acc : List FileDescriptorProto) :
    l.foldl (fun files f => if f.name = name then files ++ [f] else files) acc
      = acc ++ l.filter (fun f => decide (f.name = name)) := by
  induction l generalizing acc with
  | nil => simp
  | cons f l ih =>
    by_cases h : f.name = name
    · simp [List.foldl_cons, h, ih]
    · simp [List.foldl_cons, h, ih]

theorem protoFilesToGenerate_eq (g : generator) :
    g.protoFilesToGenerate
      = g.genReq.fileToGenerate.flatMap (fun name =>
          g.genReq.protoFile.filter (fun f => decide (f.name = name))) := by
  unfold generator.protoFilesToGenerate
  have h := foldl_emit
    (fun (files : List FileDescriptorProto) (name : String) =>
      g.genReq.protoFile.foldl
        (fun files f => if f.name = name then files ++ [f] else files) files)
    (fun name => g.genReq.protoFile.filter (fun f => decide (f.name = name)))
    (fun files name => foldl_select name g.genReq.protoFile files)
    g.genReq.fileToGenerate []
  simpa using h

theorem foldl_respond (mk : FileDescriptorProto → CodeGeneratorResponse_File)
    (l : List FileDescriptorProto) (resp : CodeGeneratorResponse) :
    l.foldl (fun (resp : CodeGeneratorResponse) f =>
        ({ file := resp.file ++ [mk f] } : CodeGeneratorResponse)) resp
      = { file := resp.file ++ l.map mk } := by
  induction l generalizing resp with
  | nil => simp
  | cons f l ih => simp [List.foldl_cons, ih]

theorem Generate_eq (g : generator) :
    g.Generate
      = { file := g.protoFilesToGenerate.map (fun f =>
          { name := "Proto/" ++ packageFileName (filePath f) ++ "_JSON.hs",
            content := g.generateHaskellCode f }) } := by
  unfold generator.Generate
  rw [foldl_respond (fun f =>
    { name := "Proto/" ++ packageFileName (filePath f) ++ "_JSON.hs",
      content := g.generateHaskellCode f })]
  simp

/-! ## The file text and the type mapping in closed form -/

theorem generateHaskellCode_eq (g : generator) (file : FileDescriptorProto) :
    g.generateHaskellCode file
      = Buffer.String (headerLines g.version (packageFileName (filePath file))
          ++ file.messageType.flatMap (fun message => generateMessage [] message)
          ++ file.enumType.flatMap (fun enum => generateEnum [] enum none)) := by
  unfold generator.generateHaskellCode
  simp only [foldl_generateEnum, generateMessages_eq, print_eq, headerLines]
  simp only [List.nil_append, List.cons_append, List.append_assoc]

theorem toType_eq (field : FieldDescriptorProto) (pfx suffix : String) :
    toType field pfx suffix
      = match baseType field pfx suffix with
        | none => Except.error ("no mapping for type " ++ field.type.String)
        | some base =>
          Except.ok
            (if field.label = .LABEL_REPEATED then "Vector " ++ base
             else if field.type = .TYPE_MESSAGE then pfx ++ "Maybe " ++ base ++ suffix
             else base) := by
  cases field with
  | mk name label type typeName oneofIndex =>
    cases type <;> cases label <;> rfl


/-! ## The own block of a message with fields -/

theorem setSeps_false_eq (fs rs : String) (l : List aField) :
    setSeps false fs rs l = l.map (fun f => { f with sep := rs }) := by
  have h := map_setSeps_false id fs rs l
  simpa using h

theorem setSeps_true_cons (fs rs : String) (f : aField) (l : List aField) :
    setSeps true fs rs (f :: l)
      = { f with sep := fs } :: l.map (fun f => { f with sep := rs }) := by
  simp [setSeps, setSeps_false_eq]

theorem mem_setSeps_inv (fs rs : String) (f : aField) (l : List aField) (first : Bool)
    (h : f ∈ setSeps first fs rs l) :
    ∃ e ∈ l, ∃ sep, f = { e with sep := sep } := by
  induction l generalizing first with
  | nil => simp [setSeps] at h
  | cons e l ih =>
    simp only [setSeps, List.mem_cons] at h
    rcases h with h | h
    · exact ⟨e, List.mem_cons_self _ _, _, h⟩
    · obtain ⟨e', he', sep, hs⟩ := ih false h
      exact ⟨e', List.mem_cons_of_mem _ he', sep, hs⟩

/-- Every classified entry of a message reads through `maybe'` and its
identifier when it is presence-wrapped, through its identifier otherwise. -/
theorem lensFieldName_of_mem (message : DescriptorProto) (fs rs : String) (f : aField)
    (h : f ∈ fieldsForMessageInstance message fs rs) :
    f.lensFieldName = if f.isMaybeField then "maybe'" ++ f.fieldName else f.fieldName := by
  rw [fieldsForMessageInstance_eq] at h
  obtain ⟨e, he, sep, rfl⟩ := mem_setSeps_inv _ _ _ _ _ h
  rcases List.mem_append.mp he with he | he
  · obtain ⟨field, _, rfl⟩ := List.mem_map.mp he
    simp only [plainEntry]
  · obtain ⟨oneof, _, rfl⟩ := List.mem_map.mp he
    simp [groupEntry]

theorem messageInstanceLines_of_fields (message : DescriptorProto)
    (hne : message.field ≠ []) :
    messageInstanceLines message
      = ["", "instance FromJSONPB " ++ message.name ++ " where",
          "  parseJSONPB = withObject \"" ++ message.name ++ "\" $ \\obj -> do"]
        ++ (fieldsForMessageInstance message "<$>" "<*>").map decodeReadLine
        ++ ["    pure $ defMessage"]
        ++ (fieldsForMessageInstance message "<$>" "<*>").map decodeAssignLine
        ++ ["", "instance ToJSONPB " ++ message.name ++ " where", "  toJSONPB x = object"]
        ++ (fieldsForMessageInstance message "[" ",").map encodeLine
        ++ ["    ]", "  toEncodingPB x = pairs"]
        ++ (fieldsForMessageInstance message "[" ",").map encodeLine
        ++ ["    ]"]
        ++ bridgingLines message.name := by
  have h0 : (message.field.length == 0) = false := by
    cases hm : message.field with
    | nil => exact absurd hm hne
    | cons a l => rfl
  unfold messageInstanceLines
  simp only [h0, printToFromJSONInstances_eq]
  simp [List.append_assoc]

/-- A message with a field, in which every oneof index names a declared
group, has a classified entry. -/
theorem classified_ne_nil (message : DescriptorProto) (hne : message.field ≠ [])
    (hindex : ∀ field ∈ message.field, ∀ i : Int, field.oneofIndex = some i →
      0 ≤ i ∧ i < message.oneofDecl.length) :
    (plainFields message).map plainEntry ++ message.oneofDecl.map groupEntry ≠ [] := by
  intro h
  obtain ⟨h₁, h₂⟩ := List.append_eq_nil.mp h
  have hp : plainFields message = [] := List.map_eq_nil_iff.mp h₁
  have ho : message.oneofDecl = [] := List.map_eq_nil_iff.mp h₂
  obtain ⟨field, hf⟩ := List.exists_mem_of_ne_nil _ hne
  cases hi : field.oneofIndex with
  | none =>
    have : field ∈ plainFields message := by simp [plainFields, hf, hi]
    rw [hp] at this
    cases this
  | some i =>
    have := hindex field hf i hi
    rw [ho] at this
    simp at this
    omega


/-! ## Characters and segments -/

theorem toLower_eq_or (c : Char) : c.toLower = c ∨ c.toLower.isLower = true := by
  unfold Char.toLower
  by_cases h : c.toNat ≥ 65 ∧ c.toNat ≤ 90
  · right
    simp only [h, and_self, if_true]
    obtain ⟨h₁, h₂⟩ := h
    generalize c.toNat = n at h₁ h₂
    interval_cases n <;> decide
  · left
    simp only [h, if_false]

theorem toUpper_eq_or (c : Char) : c.toUpper = c ∨ c.toUpper.isUpper = true := by
  unfold Char.toUpper
  by_cases h : c.toNat ≥ 97 ∧ c.toNat ≤ 122
  · right
    simp only [h, and_self, if_true]
    obtain ⟨h₁, h₂⟩ := h
    generalize c.toNat = n at h₁ h₂
    interval_cases n <;> decide
  · left
    simp only [h, if_false]

/-- Lower-casing produces a character that is no letter only from itself. -/
theorem eq_of_toLower_eq (t c : Char) (ht : t.isLower = false) (h : c.toLower = t) : c = t := by
  rcases toLower_eq_or c with e | e
  · rw [← e]; exact h
  · rw [h, ht] at e; cases e

/-- Upper-casing produces a character that is no letter only from itself. -/
theorem eq_of_toUpper_eq (t c : Char) (ht : t.isUpper = false) (h : c.toUpper = t) : c = t := by
  rcases toUpper_eq_or c with e | e
  · rw [← e]; exact h
  · rw [h, ht] at e; cases e

theorem mem_map_toLower (t : Char) (ht : t.isLower = false) (l : List Char)
    (h : t ∈ l.map Char.toLower) : t ∈ l := by
  obtain ⟨c, hc, e⟩ := List.mem_map.mp h
  rw [← eq_of_toLower_eq t c ht e]; exact hc

theorem mem_map_toUpper (t : Char) (ht : t.isUpper = false) (l : List Char)
    (h : t ∈ l.map Char.toUpper) : t ∈ l := by
  obtain ⟨c, hc, e⟩ := List.mem_map.mp h
  rw [← eq_of_toUpper_eq t c ht e]; exact hc

theorem mem_titleMap (t : Char) (ht : t.isUpper = false) (l : List Char) (prev : Char)
    (h : t ∈ strings.titleMap prev l) : t ∈ l := by
  induction l generalizing prev with
  | nil => simp [strings.titleMap] at h
  | cons r rs ih =>
    simp only [strings.titleMap, List.mem_cons] at h
    rcases h with h | h
    · split at h
      · rw [eq_of_toUpper_eq t r ht h.symm]; exact List.mem_cons_self _ _
      · rw [h]; exact List.mem_cons_self _ _
    · exact List.mem_cons_of_mem _ (ih r h)

theorem titleMap_of_ident (l : List Char) (prev : Char)
    (hp : strings.isSeparator prev = false) (hl : ∀ c ∈ l, strings.isSeparator c = false) :
    strings.titleMap prev l = l := by
  induction l generalizing prev with
  | nil => rfl
  | cons r rs ih =>
    simp only [strings.titleMap, hp, Bool.false_eq_true, if_false]
    rw [ih r (hl r (List.mem_cons_self _ _)) (fun c hc => hl c (List.mem_cons_of_mem _ hc))]

theorem isSeparator_eq (c : Char) : strings.isSeparator c = !identChar c := rfl

theorem identChar_toLower (c : Char) (h : identChar c = true) : identChar c.toLower = true := by
  rcases toLower_eq_or c with e | e
  · rw [e]; exact h
  · simp [identChar, e]

theorem splitChars_ne_nil (sep : Char) (l : List Char) : strings.splitChars sep l ≠ [] := by
  cases l with
  | nil => simp [strings.splitChars]
  | cons c cs =>
    simp only [strings.splitChars]
    split
    · simp
    · split <;> simp

theorem mem_of_mem_splitChars (sep : Char) (l p : List Char) (c : Char)
    (hp : p ∈ strings.splitChars sep l) (hc : c ∈ p) : c ∈ l ∧ c ≠ sep := by
  induction l generalizing p with
  | nil =>
    simp only [strings.splitChars, List.mem_singleton] at hp
    subst hp
    cases hc
  | cons a as ih =>
    simp only [strings.splitChars] at hp
    by_cases ha : a = sep
    · simp only [ha, if_true, List.mem_cons] at hp
      rcases hp with rfl | hp
      · cases hc
      · have := ih p hp hc
        exact ⟨List.mem_cons_of_mem _ this.1, this.2⟩
    · simp only [ha, if_false] at hp
      cases hs : strings.splitChars sep as with
      | nil => exact absurd hs (splitChars_ne_nil sep as)
      | cons q qs =>
        rw [hs] at hp ih
        simp only [List.mem_cons] at hp
        rcases hp with rfl | hp
        · rcases List.mem_cons.mp hc with rfl | hc
          · exact ⟨List.mem_cons_self _ _, ha⟩
          · have := ih q (List.mem_cons_self _ _) hc
            exact ⟨List.mem_cons_of_mem _ this.1, this.2⟩
        · have := ih p (List.mem_cons_of_mem _ hp) hc
          exact ⟨List.mem_cons_of_mem _ this.1, this.2⟩

theorem splitChars_of_not_mem (sep : Char) (l : List Char) (h : sep ∉ l) :
    strings.splitChars sep l = [l] := by
  induction l with
  | nil => rfl
  | cons a as ih =>
    have ha : a ≠ sep := fun e => h (e ▸ List.mem_cons_self _ _)
    have has : sep ∉ as := fun e => h (List.mem_cons_of_mem _ e)
    simp [strings.splitChars, ha, ih has]

theorem splitChars_append_sep (sep : Char) (a l : List Char) (h : sep ∉ a) :
    strings.splitChars sep (a ++ sep :: l) = a :: strings.splitChars sep l := by
  induction a with
  | nil => simp [strings.splitChars]
  | cons x xs ih =>
    have hx : x ≠ sep := fun e => h (e ▸ List.mem_cons_self _ _)
    have hxs : sep ∉ xs := fun e => h (List.mem_cons_of_mem _ e)
    simp [strings.splitChars, hx, ih hxs]

theorem data_Join_empty (parts : List String) :
    (strings.Join parts "").data = parts.flatMap String.data := by
  induction parts with
  | nil => rfl
  | cons a rest ih =>
    cases rest with
    | nil => simp [strings.Join]
    | cons b rest =>
      rw [strings.Join, String.data_append, String.data_append, ih]
      simp

theorem camelParts_succ (i : Nat) (l : List String) :
    camelParts (i + 1) l = l.map capitalize := by
  induction l generalizing i with
  | nil => rfl
  | cons x xs ih => simp [camelParts, ih, capitalize]

/-- On an identifier segment `capitalize` lower-cases every character and
upper-cases the first one. -/
theorem data_capitalize (seg : List Char) (h : ∀ c ∈ seg, identChar c = true) :
    (capitalize (String.mk seg)).data = capitalizeChars seg := by
  show strings.titleMap ' ' (seg.map Char.toLower) = capitalizeChars seg
  unfold capitalizeChars
  cases hm : seg.map Char.toLower with
  | nil => rfl
  | cons c cs =>
    have hall : ∀ x ∈ c :: cs, strings.isSeparator x = false := by
      intro x hx
      rw [← hm] at hx
      obtain ⟨y, hy, rfl⟩ := List.mem_map.mp hx
      simp [isSeparator_eq, identChar_toLower y (h y hy)]
    have hsp : strings.isSeparator ' ' = true := by decide
    simp only [strings.titleMap, hsp, if_true]
    rw [titleMap_of_ident cs c (hall c (List.mem_cons_self _ _))
      (fun x hx => hall x (List.mem_cons_of_mem _ hx))]


/-! ## The name transformations in closed form -/

theorem flatMap_congr_mem {α β : Type} (f g : α → List β) (l : List α)
    (h : ∀ a ∈ l, f a = g a) : l.flatMap f = l.flatMap g := by
  induction l with
  | nil => rfl
  | cons a as ih =>
    simp only [List.flatMap_cons]
    rw [h a (List.mem_cons_self _ _), ih (fun x hx => h x (List.mem_cons_of_mem _ hx))]

theorem identChar_of_segment (s : String) (hs : isIdentifier s = true) (p : List Char)
    (hp : p ∈ strings.splitChars '_' s.data) (c : Char) (hc : c ∈ p) : identChar c = true := by
  have hmem := (mem_of_mem_splitChars '_' s.data p c hp hc).1
  exact List.all_eq_true.mp hs c hmem

theorem data_pascalCase (s : String) (hs : isIdentifier s = true) :
    (pascalCase s).data = (strings.splitChars '_' s.data).flatMap capitalizeChars := by
  unfold pascalCase strings.Split
  rw [data_Join_empty]
  simp only [List.map_map, List.flatMap_def]
  rw [← List.flatMap_def, ← List.flatMap_def]
  apply flatMap_congr_mem
  intro p hp
  exact data_capitalize p (identChar_of_segment s hs p hp)

theorem data_camel (s : String) (hs : isIdentifier s = true) :
    (strings.Join (camelParts 0 (strings.Split s '_')) "").data = camelChars s := by
  unfold camelChars strings.Split
  rw [data_Join_empty]
  cases hsp : strings.splitChars '_' s.data with
  | nil => rfl
  | cons first rest =>
    simp only [List.map_cons, camelParts, if_true, camelParts_succ, Nat.zero_add,
      List.flatMap_cons]
    congr 1
    simp only [List.map_map, List.flatMap_def]
    rw [← List.flatMap_def, ← List.flatMap_def]
    apply flatMap_congr_mem
    intro p hp
    exact data_capitalize p (identChar_of_segment s hs p (hsp ▸ List.mem_cons_of_mem _ hp))

theorem mem_capitalize (t : Char) (hl : t.isLower = false) (hu : t.isUpper = false)
    (x : String) (h : t ∈ (capitalize x).data) : t ∈ x.data :=
  mem_map_toLower t hl _ (mem_titleMap t hu _ ' ' h)

theorem mem_Split (sep : Char) (s p : String) (c : Char)
    (hp : p ∈ strings.Split s sep) (hc : c ∈ p.data) : c ∈ s.data ∧ c ≠ sep := by
  obtain ⟨q, hq, rfl⟩ := List.mem_map.mp hp
  exact mem_of_mem_splitChars sep s.data q c hq hc

/-- A character that is no letter occurs in `pascalCase s` only if it
occurs in `s`, and it is not the underscore. -/
theorem mem_pascalCase (t : Char) (hl : t.isLower = false) (hu : t.isUpper = false)
    (s : String) (h : t ∈ (pascalCase s).data) : t ∈ s.data ∧ t ≠ '_' := by
  unfold pascalCase at h
  rw [data_Join_empty] at h
  obtain ⟨x, hx, hc⟩ := List.mem_flatMap.mp h
  obtain ⟨p, hp, rfl⟩ := List.mem_map.mp hx
  exact mem_Split '_' s p t hp (mem_capitalize t hl hu p hc)

theorem mem_camelParts (t : Char) (hl : t.isLower = false) (hu : t.isUpper = false)
    (l : List String) (i : Nat) (x : String) (hx : x ∈ camelParts i l)
    (hc : t ∈ x.data) : ∃ p ∈ l, t ∈ p.data := by
  induction l generalizing i with
  | nil => simp [camelParts] at hx
  | cons a as ih =>
    simp only [camelParts, List.mem_cons] at hx
    rcases hx with rfl | hx
    · refine ⟨a, List.mem_cons_self _ _, ?_⟩
      split at hc
      · exact mem_map_toLower t hl _ hc
      · exact mem_capitalize t hl hu a hc
    · obtain ⟨p, hp, hpc⟩ := ih (i + 1) hx
      exact ⟨p, List.mem_cons_of_mem _ hp, hpc⟩

/-- A character that is no letter occurs in the lower-camel form of `s`
only if it occurs in `s`, and it is not the underscore. -/
theorem mem_camelCase (t : Char) (hl : t.isLower = false) (hu : t.isUpper = false)
    (s : String) (h : t ∈ (camelCase s).data) : t ∈ s.data ∧ t ≠ '_' := by
  unfold camelCase at h
  rw [data_Join_empty] at h
  obtain ⟨x, hx, hc⟩ := List.mem_flatMap.mp h
  obtain ⟨p, hp, hpc⟩ := mem_camelParts t hl hu _ 0 x hx hc
  exact mem_Split '_' s p t hp hpc

theorem toHaskellFieldName_eq (s : String) :
    toHaskellFieldName s = if camelCase s = "type" then camelCase s ++ "'" else camelCase s :=
  rfl

/-- A character that is no letter and no prime occurs in
`toHaskellFieldName s` only if it occurs in `s`, and it is not the
underscore. -/
theorem mem_toHaskellFieldName (t : Char) (hl : t.isLower = false) (hu : t.isUpper = false)
    (hq : t ≠ '\'') (s : String) (h : t ∈ (toHaskellFieldName s).data) :
    t ∈ s.data ∧ t ≠ '_' := by
  rw [toHaskellFieldName_eq] at h
  split at h
  · rw [String.data_append] at h
    rcases List.mem_append.mp h with h | h
    · exact mem_camelCase t hl hu s h
    · simp only [show ("'" : String).data = ['\''] from rfl, List.mem_singleton] at h
      exact absurd h hq
  · exact mem_camelCase t hl hu s h


/-! ## Dotted type references -/

theorem getLastD_mem {α : Type} (l : List α) (d : α) (h : l ≠ []) : l.getLastD d ∈ l := by
  induction l generalizing d with
  | nil => exact absurd rfl h
  | cons a as ih =>
    cases as with
    | nil => simp [List.getLastD]
    | cons b bs =>
      have := ih a (List.cons_ne_nil _ _)
      simp only [List.getLastD] at this ⊢
      exact List.mem_cons_of_mem _ this

theorem Split_ne_nil (s : String) (sep : Char) : strings.Split s sep ≠ [] := by
  unfold strings.Split
  intro h
  exact splitChars_ne_nil sep s.data (List.map_eq_nil_iff.mp h)

theorem length_Split (s : String) (sep : Char) :
    (strings.Split s sep).length = (strings.splitChars sep s.data).length := by
  simp [strings.Split]

/-- Splitting the join of separator-free parts gives the parts back. -/
theorem splitChars_Join (sep : Char) (parts : List String) (hne : parts ≠ [])
    (h : ∀ p ∈ parts, sep ∉ p.data) :
    strings.splitChars sep (strings.Join parts (String.mk [sep])).data
      = parts.map String.data := by
  induction parts with
  | nil => exact absurd rfl hne
  | cons a rest ih =>
    cases rest with
    | nil =>
      simp only [strings.Join, List.map_cons, List.map_nil]
      exact splitChars_of_not_mem sep a.data (h a (List.mem_cons_self _ _))
    | cons b rest =>
      rw [strings.Join, String.data_append, String.data_append]
      have e : (String.mk [sep]).data = [sep] := rfl
      rw [e, List.append_assoc, List.singleton_append,
        splitChars_append_sep sep a.data _ (h a (List.mem_cons_self _ _)),
        ih (List.cons_ne_nil _ _) (fun p hp => h p (List.mem_cons_of_mem _ hp))]
      rfl

theorem toHaskellType_dot (s : String)
    (h : s.data.length > 1 ∧ s.data.head? = some '.') :
    toHaskellType s = (strings.Split s '.').getLastD "" := by
  unfold toHaskellType
  have hc : s.data.length > 1 ∧ s.data.take 1 = ['.'] := by
    obtain ⟨h₁, h₂⟩ := h
    cases hd : s.data with
    | nil => rw [hd] at h₂; cases h₂
    | cons c cs =>
      rw [hd] at h₁ h₂
      simp only [List.head?_cons, Option.some.injEq] at h₂
      exact ⟨h₁, by simp [h₂]⟩
  rw [if_pos hc]

theorem toHaskellType_other (s : String)
    (h : ¬ (s.data.length > 1 ∧ s.data.head? = some '.')) :
    toHaskellType s = strings.Join ((strings.Split s '.').map strings.Title) "." := by
  unfold toHaskellType
  have hc : ¬ (s.data.length > 1 ∧ s.data.take 1 = ['.']) := by
    rintro ⟨h₁, h₂⟩
    apply h
    refine ⟨h₁, ?_⟩
    cases hd : s.data with
    | nil => rw [hd] at h₂; simp at h₂
    | cons c cs =>
      rw [hd] at h₂
      simp only [List.take_succ_cons, List.take_zero, List.cons.injEq, and_true] at h₂
      simp [h₂]
  rw [if_neg hc]


/-! ## Lines of the rendered text -/

theorem noNewline_iff (s : String) : noNewline s = true ↔ '\n' ∉ s.data := by
  simp [noNewline]

theorem noNewline_append (a b : String) :
    noNewline (a ++ b) = (noNewline a && noNewline b) := by
  simp [noNewline, String.data_append, Bool.or_eq_true, List.contains_eq_any_beq]

theorem noNewline_Title (s : String) (h : noNewline s = true) :
    noNewline (strings.Title s) = true := by
  rw [noNewline_iff] at h ⊢
  exact fun hm => h (mem_titleMap '\n' (by decide) s.data ' ' hm)

theorem noNewline_ToUpper (s : String) (h : noNewline s = true) :
    noNewline (strings.ToUpper s) = true := by
  rw [noNewline_iff] at h ⊢
  exact fun hm => h (mem_map_toUpper '\n' (by decide) s.data hm)

theorem noNewline_pascalCase (s : String) (h : noNewline s = true) :
    noNewline (pascalCase s) = true := by
  rw [noNewline_iff] at h ⊢
  exact fun hm => h (mem_pascalCase '\n' (by decide) (by decide) s hm).1

theorem noNewline_toHaskellFieldName (s : String) (h : noNewline s = true) :
    noNewline (toHaskellFieldName s) = true := by
  rw [noNewline_iff] at h ⊢
  exact fun hm => h (mem_toHaskellFieldName '\n' (by decide) (by decide) (by decide) s hm).1

theorem countP_map_zero {α : Type} (p : String → Bool) (g : α → String) (l : List α)
    (h : ∀ a, p (g a) = false) : (l.map g).countP p = 0 := by
  induction l with
  | nil => rfl
  | cons a as ih => simp [List.countP_cons, h, ih]

theorem countP_flatMap_const {α : Type} (p : String → Bool) (f : α → List String)
    (k : Nat) (l : List α) (h : ∀ a ∈ l, (f a).countP p = k) :
    (l.flatMap f).countP p = k * l.length := by
  induction l with
  | nil => simp
  | cons a as ih =>
    rw [List.flatMap_cons, List.countP_append, h a (List.mem_cons_self _ _),
      ih (fun x hx => h x (List.mem_cons_of_mem _ hx)), List.length_cons]
    ring

theorem all_flatMap_of {α : Type} (p : String → Bool) (f : α → List String) (l : List α)
    (h : ∀ a ∈ l, (f a).all p = true) : (l.flatMap f).all p = true := by
  rw [List.all_eq_true]
  intro x hx
  obtain ⟨a, ha, hxa⟩ := List.mem_flatMap.mp hx
  exact List.all_eq_true.mp (h a ha) x hxa

theorem all_map_of {α : Type} (p : String → Bool) (g : α → String) (l : List α)
    (h : ∀ a ∈ l, p (g a) = true) : (l.map g).all p = true := by
  rw [List.all_eq_true]
  intro x hx
  obtain ⟨a, ha, rfl⟩ := List.mem_map.mp hx
  exact h a ha

theorem startsInstance_append_true (p x : String) (h : startsInstance p = true) :
    startsInstance (p ++ x) = true := by
  unfold startsInstance at h ⊢
  rw [String.data_append]
  rw [List.isPrefixOf_iff_prefix] at h ⊢
  exact h.trans (List.prefix_append _ _)

theorem startsInstance_append_blank (p x : String) (h : p.data.head? = some ' ') :
    startsInstance (p ++ x) = false := by
  unfold startsInstance
  rw [String.data_append]
  cases hp : p.data with
  | nil => rw [hp] at h; cases h
  | cons c cs =>
    rw [hp] at h
    simp only [List.head?_cons, Option.some.injEq] at h
    subst h
    rfl

theorem startsInstance_decodeReadLine (f : aField) :
    startsInstance (decodeReadLine f) = false := by
  unfold decodeReadLine
  split <;>
    simp +decide (disch := decide) only [String.append_assoc, startsInstance_append_blank]

theorem startsInstance_decodeAssignLine (f : aField) :
    startsInstance (decodeAssignLine f) = false := by
  unfold decodeAssignLine
  simp +decide (disch := decide) only [String.append_assoc, startsInstance_append_blank]

theorem startsInstance_encodeLine (f : aField) : startsInstance (encodeLine f) = false := by
  unfold encodeLine
  simp +decide (disch := decide) only [String.append_assoc, startsInstance_append_blank]

theorem startsInstance_oneofDecodeLine (outerName sep : String) (field : FieldDescriptorProto) :
    startsInstance (oneofDecodeLine outerName sep field) = false := by
  unfold oneofDecodeLine
  simp +decide (disch := decide) only [String.append_assoc, startsInstance_append_blank]

theorem startsInstance_oneofToJSONLine (outerName : String) (field : FieldDescriptorProto) :
    startsInstance (oneofToJSONLine outerName field) = false := by
  unfold oneofToJSONLine
  simp +decide (disch := decide) only [String.append_assoc, startsInstance_append_blank]

theorem startsInstance_oneofToEncodingLine (outerName : String)
    (field : FieldDescriptorProto) :
    startsInstance (oneofToEncodingLine outerName field) = false := by
  unfold oneofToEncodingLine
  simp +decide (disch := decide) only [String.append_assoc, startsInstance_append_blank]

theorem count_bridgingLines (n : String) : (bridgingLines n).countP startsInstance = 2 := by
  unfold bridgingLines
  simp +decide (disch := decide) only [List.countP_cons, List.countP_nil, String.append_assoc,
    startsInstance_append_true, startsInstance_append_blank]

theorem count_generateEnum (enum : EnumDescriptorProto) (parent : Option DescriptorProto) :
    (generateEnum [] enum parent).countP startsInstance = 4 := by
  rw [generateEnum_eq]
  have hv := countP_map_zero startsInstance
    (fun value : EnumValueDescriptorProto =>
      "  parseJSONPB (JSONPB.String \"" ++ strings.ToUpper value.name ++ "\") = pure "
        ++ enumQualifier parent ++ strings.ToUpper value.name) enum.value
    (by
      intro value
      simp +decide (disch := decide) only [String.append_assoc, startsInstance_append_blank])
  simp +decide (disch := decide) only [List.countP_cons, List.countP_nil, List.countP_append,
    String.append_assoc, startsInstance_append_true, startsInstance_append_blank,
    List.nil_append, count_bridgingLines] at hv ⊢
  rw [hv]
  all_goals simp

theorem count_oneofDecodeLines (outerName : String) (l : List FieldDescriptorProto) :
    (oneofDecodeLines outerName l).countP startsInstance = 0 := by
  cases l with
  | nil => rfl
  | cons first rest =>
    simp only [oneofDecodeLines, List.countP_cons, startsInstance_oneofDecodeLine,
      countP_map_zero startsInstance _ rest (startsInstance_oneofDecodeLine outerName ",")]
    rfl

theorem count_generateOneof (message : DescriptorProto) (oneof : OneofDescriptorProto) :
    (generateOneof [] message oneof).countP startsInstance = 4 := by
  rw [generateOneof_eq]
  simp +decide (disch := decide) only [List.countP_cons, List.countP_nil, List.countP_append,
    String.append_assoc, startsInstance_append_true, startsInstance_append_blank,
    List.nil_append, count_bridgingLines, count_oneofDecodeLines,
    countP_map_zero startsInstance _ _ (startsInstance_oneofToJSONLine _),
    countP_map_zero startsInstance _ _ (startsInstance_oneofToEncodingLine _)]

theorem count_messageInstanceLines (message : DescriptorProto) :
    (messageInstanceLines message).countP startsInstance = 4 := by
  unfold messageInstanceLines
  simp only [printToFromJSONInstances_eq]
  by_cases h : (message.field.length == 0) = true
  · simp +decide (disch := decide) only [h, if_true, List.countP_cons, List.countP_nil,
      List.countP_append, String.append_assoc, startsInstance_append_true,
      startsInstance_append_blank, List.nil_append, count_bridgingLines]
  · simp +decide (disch := decide) only [h, if_false, List.countP_cons, List.countP_nil,
      List.countP_append, String.append_assoc, startsInstance_append_true,
      startsInstance_append_blank, List.nil_append, count_bridgingLines,
      countP_map_zero startsInstance _ _ startsInstance_decodeReadLine,
      countP_map_zero startsInstance _ _ startsInstance_decodeAssignLine,
      countP_map_zero startsInstance _ _ startsInstance_encodeLine]

mutual

theorem count_generateMessage :
    ∀ message : DescriptorProto,
      (generateMessage [] message).countP startsInstance = 4 * message.declCount
  | .mk name field nestedType enumType oneofDecl => by
    rw [generateMessage_eq]
    simp only [List.nil_append, List.countP_append, DescriptorProto.oneofDecl,
      DescriptorProto.nestedType, DescriptorProto.enumType]
    rw [countP_flatMap_const startsInstance _ 4 oneofDecl
        (fun oneof _ => count_generateOneof _ oneof),
      count_messageInstanceLines,
      countP_flatMap_const startsInstance _ 4 enumType
        (fun enum _ => count_generateEnum enum _),
      count_generateMessages nestedType, DescriptorProto.declCount]
    ring

theorem count_generateMessages :
    ∀ l : List DescriptorProto,
      (l.flatMap (fun message => generateMessage [] message)).countP startsInstance
        = 4 * declCountList l
  | [] => by simp [declCountList]
  | message :: rest => by
    rw [List.flatMap_cons, List.countP_append, count_generateMessage message,
      count_generateMessages rest, declCountList]
    ring

end

/-! ## No generated line holds a newline -/

theorem mem_setSeps_inv_sep (fs rs : String) (f : aField) (l : List aField) (first : Bool)
    (h : f ∈ setSeps first fs rs l) :
    ∃ e ∈ l, ∃ sep, (sep = fs ∨ sep = rs) ∧ f = { e with sep := sep } := by
  induction l generalizing first with
  | nil => simp [setSeps] at h
  | cons e l ih =>
    simp only [setSeps, List.mem_cons] at h
    rcases h with h | h
    · refine ⟨e, List.mem_cons_self _ _, _, ?_, h⟩
      cases first
      · exact Or.inr rfl
      · exact Or.inl rfl
    · obtain ⟨e', he', sep, hsep, hs⟩ := ih false h
      exact ⟨e', List.mem_cons_of_mem _ he', sep, hsep, hs⟩

/-- The separator, the identifier and the accessor of a classified entry
hold no newline when the names of the message and the two separators hold
none. -/
theorem entry_noNewline (message : DescriptorProto) (fs rs : String)
    (hfs : noNewline fs = true) (hrs : noNewline rs = true)
    (hf : ∀ field ∈ message.field, noNewline field.name = true)
    (ho : ∀ oneof ∈ message.oneofDecl, noNewline oneof.name = true)
    (f : aField) (h : f ∈ fieldsForMessageInstance message fs rs) :
    noNewline f.sep = true ∧ noNewline f.fieldName = true
      ∧ noNewline f.lensFieldName = true := by
  have hl := lensFieldName_of_mem message fs rs f h
  rw [fieldsForMessageInstance_eq] at h
  obtain ⟨e, he, sep, hsep, rfl⟩ := mem_setSeps_inv_sep _ _ _ _ _ h
  have hname : noNewline e.fieldName = true := by
    rcases List.mem_append.mp he with he | he
    · obtain ⟨field, hfield, rfl⟩ := List.mem_map.mp he
      exact noNewline_toHaskellFieldName _
        (hf field (List.mem_of_mem_filter hfield))
    · obtain ⟨oneof, honeof, rfl⟩ := List.mem_map.mp he
      exact noNewline_toHaskellFieldName _ (ho oneof honeof)
  refine ⟨?_, hname, ?_⟩
  · rcases hsep with rfl | rfl
    · exact hfs
    · exact hrs
  · rw [hl]
    show noNewline (if e.isMaybeField = true then "maybe'" ++ e.fieldName else e.fieldName) = true
    split
    · rw [noNewline_append, hname]; rfl
    · exact hname

theorem all_bridgingLines (n : String) (h : noNewline n = true) :
    (bridgingLines n).all noNewline = true := by
  unfold bridgingLines
  simp +decide only [List.all_cons, List.all_nil, noNewline_append, h, Bool.and_true,
    Bool.true_and]

theorem all_generateEnum (enum : EnumDescriptorProto) (parent : Option DescriptorProto)
    (he : enum.namesNoNewline = true) (hp : noNewline (enumQualifier parent) = true) :
    (generateEnum [] enum parent).all noNewline = true := by
  unfold EnumDescriptorProto.namesNoNewline at he
  simp only [Bool.and_eq_true, List.all_eq_true] at he
  obtain ⟨hn, hv⟩ := he
  rw [generateEnum_eq]
  have hvals := all_map_of noNewline
    (fun value : EnumValueDescriptorProto =>
      "  parseJSONPB (JSONPB.String \"" ++ strings.ToUpper value.name ++ "\") = pure "
        ++ enumQualifier parent ++ strings.ToUpper value.name) enum.value
    (by
      intro value hvalue
      simp +decide only [noNewline_append, hp, noNewline_ToUpper _ (hv value hvalue),
        Bool.and_true, Bool.true_and])
  simp +decide only [List.nil_append, List.all_cons, List.all_nil, List.all_append,
    noNewline_append, hn, hp, hvals, all_bridgingLines, Bool.and_true, Bool.true_and]


theorem noNewline_presencePayload (field : FieldDescriptorProto) :
    noNewline (if presenceWrapped field = true then "Just x" else "x") = true := by
  split <;> rfl

theorem all_generateOneof (message : DescriptorProto) (oneof : OneofDescriptorProto)
    (hn : noNewline message.name = true)
    (hf : ∀ field ∈ message.field, noNewline field.name = true)
    (ho : noNewline oneof.name = true) :
    (generateOneof [] message oneof).all noNewline = true := by
  have ht := noNewline_Title _ hn
  have hp := noNewline_pascalCase _ ho
  have hmem : ∀ field ∈ oneofFields message,
      noNewline field.name = true ∧ noNewline (pascalCase field.name) = true := by
    intro field hfield
    have := hf field (List.mem_of_mem_filter hfield)
    exact ⟨this, noNewline_pascalCase _ this⟩
  have hd : (oneofDecodeLines (strings.Title message.name) (oneofFields message)).all noNewline
      = true := by
    rw [List.all_eq_true]
    intro line hline
    have key : ∀ sep, noNewline sep = true → ∀ field ∈ oneofFields message,
        noNewline (oneofDecodeLine (strings.Title message.name) sep field) = true := by
      intro sep hsep field hfield
      unfold oneofDecodeLine
      simp +decide only [noNewline_append, hsep, ht, (hmem field hfield).1,
        (hmem field hfield).2, Bool.and_true, Bool.true_and]
    cases hl : oneofFields message with
    | nil => rw [hl] at hline; cases hline
    | cons first rest =>
      rw [hl] at hline
      simp only [oneofDecodeLines, List.mem_cons, List.mem_map] at hline
      rcases hline with rfl | ⟨field, hfield, rfl⟩
      · exact key " " (by decide) first (hl ▸ List.mem_cons_self _ _)
      · exact key "," (by decide) field (hl ▸ List.mem_cons_of_mem _ hfield)
  have hj := all_map_of noNewline (oneofToJSONLine (strings.Title message.name))
    (oneofFields message)
    (by
      intro field hfield
      unfold oneofToJSONLine
      simp +decide only [noNewline_append, ht, (hmem field hfield).1, (hmem field hfield).2,
        noNewline_presencePayload, Bool.and_true, Bool.true_and])
  have he := all_map_of noNewline (oneofToEncodingLine (strings.Title message.name))
    (oneofFields message)
    (by
      intro field hfield
      unfold oneofToEncodingLine
      simp +decide only [noNewline_append, ht, (hmem field hfield).1, (hmem field hfield).2,
        noNewline_presencePayload, Bool.and_true, Bool.true_and])
  have hb := all_bridgingLines (strings.Title message.name ++ "'" ++ pascalCase oneof.name)
    (by simp +decide only [noNewline_append, ht, hp, Bool.and_true, Bool.true_and])
  rw [generateOneof_eq]
  simp +decide only [List.nil_append, List.all_cons, List.all_nil, List.all_append,
    noNewline_append, ht, hp, hd, hj, he, hb, Bool.and_true, Bool.true_and]

theorem all_messageInstanceLines (message : DescriptorProto)
    (hn : noNewline message.name = true)
    (hf : ∀ field ∈ message.field, noNewline field.name = true)
    (ho : ∀ oneof ∈ message.oneofDecl, noNewline oneof.name = true) :
    (messageInstanceLines message).all noNewline = true := by
  have hr := all_map_of noNewline decodeReadLine (fieldsForMessageInstance message "<$>" "<*>")
    (by
      intro f hfm
      obtain ⟨_, h₂, _⟩ := entry_noNewline message _ _ (by decide) (by decide) hf ho f hfm
      unfold decodeReadLine
      split <;> simp +decide only [noNewline_append, h₂, Bool.and_true, Bool.true_and])
  have ha := all_map_of noNewline decodeAssignLine
    (fieldsForMessageInstance message "<$>" "<*>")
    (by
      intro f hfm
      obtain ⟨_, h₂, h₃⟩ := entry_noNewline message _ _ (by decide) (by decide) hf ho f hfm
      unfold decodeAssignLine
      simp +decide only [noNewline_append, h₂, h₃, Bool.and_true, Bool.true_and])
  have he := all_map_of noNewline encodeLine (fieldsForMessageInstance message "[" ",")
    (by
      intro f hfm
      obtain ⟨h₁, h₂, h₃⟩ := entry_noNewline message _ _ (by decide) (by decide) hf ho f hfm
      unfold encodeLine
      simp +decide only [noNewline_append, h₁, h₂, h₃, Bool.and_true, Bool.true_and])
  have hb := all_bridgingLines message.name hn
  unfold messageInstanceLines
  simp only [printToFromJSONInstances_eq]
  by_cases h : (message.field.length == 0) = true
  · simp +decide only [h, if_true, List.nil_append, List.all_cons, List.all_nil,
      List.all_append, noNewline_append, hn, hb, Bool.and_true, Bool.true_and]
  · simp +decide only [h, if_false, List.nil_append, List.all_cons, List.all_nil,
      List.all_append, noNewline_append, hn, hr, ha, he, hb, Bool.and_true, Bool.true_and]

mutual

theorem all_generateMessage :
    ∀ message : DescriptorProto, message.namesNoNewline = true →
      (generateMessage [] message).all noNewline = true
  | .mk name field nestedType enumType oneofDecl => by
    intro h
    rw [DescriptorProto.namesNoNewline] at h
    simp only [Bool.and_eq_true, List.all_eq_true] at h
    obtain ⟨⟨⟨⟨hn, hf⟩, ho⟩, he⟩, hnested⟩ := h
    rw [generateMessage_eq]
    simp only [List.nil_append, List.all_append, Bool.and_eq_true, DescriptorProto.oneofDecl,
      DescriptorProto.nestedType, DescriptorProto.enumType]
    refine ⟨⟨⟨?_, ?_⟩, ?_⟩, ?_⟩
    · exact all_flatMap_of _ _ _ (fun oneof honeof =>
        all_generateOneof _ oneof hn hf (ho oneof honeof))
    · exact all_messageInstanceLines _ hn hf ho
    · exact all_generateMessages nestedType hnested
    · exact all_flatMap_of _ _ _ (fun enum henum =>
        all_generateEnum enum _ (he enum henum)
          (by
            show noNewline (name ++ "'") = true
            rw [noNewline_append, hn]
            rfl))

theorem all_generateMessages :
    ∀ l : List DescriptorProto, namesNoNewlineList l = true →
      (l.flatMap (fun message => generateMessage [] message)).all noNewline = true
  | [] => by intro _; rfl
  | message :: rest => by
    intro h
    rw [namesNoNewlineList, Bool.and_eq_true] at h
    rw [List.flatMap_cons, List.all_append, all_generateMessage message h.1,
      all_generateMessages rest h.2]
    rfl

end


/-! ## The claims -/

set_option maxRecDepth 100000 in
/-- C1, as stated, fails: for the field declared `user_id` the decode read
line and both encode lines are keyed "userId", and no line of the generated
text carries the key "user_id". -/
theorem C1_key_not_original_counterexample :
    generateMessage [] userIdMessage
        = ["",
           "instance FromJSONPB M where",
           "  parseJSONPB = withObject \"M\" $ \\obj -> do",
           "    userId' <- obj .: \"userId\"",
           "    pure $ defMessage",
           "      & P.userId .~ userId'",
           "",
           "instance ToJSONPB M where",
           "  toJSONPB x = object",
           "    [ \"userId\" .= (x^.userId)",
           "    ]",
           "  toEncodingPB x = pairs",
           "    [ \"userId\" .= (x^.userId)",
           "    ]",
           "",
           "instance FromJSON M where",
           "  parseJSON = parseJSONPB",
           "",
           "instance ToJSON M where",
           "  toJSON = toAesonValue",
           "  toEncoding = toAesonEncoding"]
      ∧ ∀ line ∈ generateMessage [] userIdMessage, ¬ ("\"user_id\"".data <:+: line.data) := by
  decide

/-- C1, amended: for every field of a message that is not in a oneof group
and whose lower-camel name `camelCase name` is not the reserved word "type",
the own instance block of the message, a contiguous part of the generated
text, holds the decode read line keyed by `camelCase name` (the permit-absent
read for a presence-wrapped field, the must-be-present read otherwise) and an
encode line keyed by `camelCase name`, opened by "[" or ",". -/
theorem C1_key_is_camelCase (b : Buffer) (message : DescriptorProto)
    (field : FieldDescriptorProto) (hmem : field ∈ message.field)
    (hplain : field.oneofIndex = none) (hword : camelCase field.name ≠ "type") :
    messageInstanceLines message <:+: generateMessage b message
      ∧ (if presenceWrapped field then
            "    " ++ camelCase field.name ++ "' <- obj A..:? \"" ++ camelCase field.name ++ "\""
          else
            "    " ++ camelCase field.name ++ "' <- obj .: \"" ++ camelCase field.name ++ "\"")
          ∈ messageInstanceLines message
      ∧ ∃ sep, (sep = "[" ∨ sep = ",")
          ∧ ("    " ++ sep ++ " \"" ++ camelCase field.name ++ "\" .= (x^."
              ++ (if presenceWrapped field then "maybe'" ++ camelCase field.name
                  else camelCase field.name) ++ ")")
            ∈ messageInstanceLines message := by
  have hne : message.field ≠ [] := List.ne_nil_of_mem hmem
  have hp : plainEntry field
      ∈ (plainFields message).map plainEntry ++ message.oneofDecl.map groupEntry := by
    apply List.mem_append_left
    apply List.mem_map_of_mem
    simp [plainFields, hmem, hplain]
  refine ⟨messageInstanceLines_contiguous b message, ?_, ?_⟩
  · obtain ⟨sep, _, hs⟩ := mem_setSeps "<$>" "<*>" _ _ true hp
    rw [← fieldsForMessageInstance_eq] at hs
    have := mem_messageInstanceLines_read message _ hne hs
    simpa [decodeReadLine, plainEntry, toHaskellFieldName_of_ne _ hword] using this
  · obtain ⟨sep, hsep, hs⟩ := mem_setSeps "[" "," _ _ true hp
    rw [← fieldsForMessageInstance_eq] at hs
    have := mem_messageInstanceLines_encode message _ hne hs
    exact ⟨sep, hsep, by
      simpa [encodeLine, plainEntry, toHaskellFieldName_of_ne _ hword] using this⟩

set_option maxRecDepth 100000 in
/-- C1, amended, at the message `M` with the field `user_id`: the field is a
plain field of `M`, its lower-camel name is not "type", and the own block of
`M` holds the read line keyed "userId". -/
theorem C1_key_is_camelCase_witness :
    (userIdField ∈ userIdMessage.field ∧ userIdField.oneofIndex = none
        ∧ camelCase userIdField.name ≠ "type")
      ∧ "    userId' <- obj .: \"userId\"" ∈ messageInstanceLines userIdMessage := by
  have h := (C1_key_is_camelCase [] userIdMessage userIdField
    (by decide) (by decide) (by decide)).2.1
  have e : camelCase userIdField.name = "userId" := by decide
  have w : presenceWrapped userIdField = false := by decide
  rw [e, w] at h
  exact ⟨by decide, h⟩

set_option maxRecDepth 100000 in
/-- C2 at a message with the two oneof groups `a` (member `x`) and `b`
(member `y`): the member list used for every group holds both `x` and `y`,
whereas the fields whose oneof index is that of `a` are `x` alone, and the
instances printed for group `a` hold the cases of `y`, a member of `b`. -/
theorem C2_member_list_ignores_group :
    (fieldsForOneOfInstance twoGroupMessage " " ",").map (fun f => f.rawFieldName) = ["x", "y"]
      ∧ (twoGroupMessage.field.filter (fun field => decide (field.oneofIndex = some 0))).map
          (fun field => field.name) = ["x"]
      ∧ generateOneof [] twoGroupMessage { name := "a" }
        = ["",
           "instance FromJSONPB M'A where",
           "  parseJSONPB = A.withObject \"M'A\" $ \\obj -> mconcat",
           "    [",
           "      M'X <$> parseField obj \"x\"",
           "    , M'Y <$> parseField obj \"y\"",
           "    ]",
           "",
           "instance ToJSONPB M'A where",
           "  toJSONPB (M'X x) = object [ \"x\" .= x ]",
           "  toJSONPB (M'Y x) = object [ \"y\" .= x ]",
           "  toEncodingPB (M'X x) = pairs [ \"x\" .= x ]",
           "  toEncodingPB (M'Y x) = pairs [ \"y\" .= x ]",
           "",
           "instance FromJSON M'A where",
           "  parseJSON = parseJSONPB",
           "",
           "instance ToJSON M'A where",
           "  toJSON = toAesonValue",
           "  toEncoding = toAesonEncoding"] := by
  decide

/-- C3: the list of `fieldsForMessageInstance` has one entry per field
without a oneof index, in declared order, named by `toHaskellFieldName` and
presence-wrapped exactly when the kind is MESSAGE and the label is not
repeated, followed by one entry per oneof group, in declaration order, named
after the group and always presence-wrapped; its length is the number of
such fields plus the number of groups, and no entry comes from a oneof
member. -/
theorem C3_fieldsForMessageInstance_shape (message : DescriptorProto)
    (firstSep restSep : String) :
    (fieldsForMessageInstance message firstSep restSep).length
        = (message.field.filter (fun field => decide (field.oneofIndex = none))).length
          + message.oneofDecl.length
      ∧ (fieldsForMessageInstance message firstSep restSep).map
          (fun f => (f.fieldName, f.isMaybeField, f.lensFieldName, f.rawFieldName))
        = (message.field.filter (fun field => decide (field.oneofIndex = none))).map
            (fun field =>
              (toHaskellFieldName field.name,
               decide (field.type = .TYPE_MESSAGE ∧ field.label ≠ .LABEL_REPEATED),
               (if field.type = .TYPE_MESSAGE ∧ field.label ≠ .LABEL_REPEATED then
                  "maybe'" ++ toHaskellFieldName field.name
                else toHaskellFieldName field.name),
               ""))
          ++ message.oneofDecl.map
            (fun oneof =>
              (toHaskellFieldName oneof.name, true, "maybe'" ++ toHaskellFieldName oneof.name,
               "")) := by
  rw [fieldsForMessageInstance_eq]
  constructor
  · simp [length_setSeps, plainFields]
  · simp only [map_setSeps_erase, implies_true]
    simp only [List.map_append, List.map_map, plainFields]
    congr 1
    apply List.map_congr_left
    intro field _
    simp only [Function.comp, plainEntry, presenceWrapped]
    by_cases h₁ : field.type = .TYPE_MESSAGE <;>
      by_cases h₂ : field.label = .LABEL_REPEATED <;> simp [h₁, h₂]

/-- C4: in the list of `fieldsForMessageInstance`, and in the list of
`fieldsForOneOfInstance`, the entry of index 0 carries `firstSep` and every
later entry carries `restSep`, whatever the first entry was built from. -/
theorem C4_separator_roles (message : DescriptorProto) (firstSep restSep : String) :
    (∀ i : Fin (fieldsForMessageInstance message firstSep restSep).length,
        ((fieldsForMessageInstance message firstSep restSep).get i).sep
          = if i.val = 0 then firstSep else restSep)
      ∧ (∀ i : Fin (fieldsForOneOfInstance message firstSep restSep).length,
        ((fieldsForOneOfInstance message firstSep restSep).get i).sep
          = if i.val = 0 then firstSep else restSep) := by
  constructor
  · rw [fieldsForMessageInstance_eq]
    intro i
    simpa using sep_setSeps firstSep restSep _ true i
  · rw [fieldsForOneOfInstance_eq]
    intro i
    simpa using sep_setSeps firstSep restSep _ true i

/-- C5: `protoFilesToGenerate` returns, for every requested name in request
order, the files of the file set whose path equals that name, in file-set
order; a file is returned exactly when it is in the file set and its path
is requested; a requested name contributes no entry exactly when no file
carries it.  The function is total: no name raises an error. -/
theorem C5_protoFilesToGenerate_selects (g : generator) :
    g.protoFilesToGenerate
        = g.genReq.fileToGenerate.flatMap (fun name =>
            g.genReq.protoFile.filter (fun f => decide (f.name = name)))
      ∧ (∀ f, f ∈ g.protoFilesToGenerate
          ↔ f ∈ g.genReq.protoFile ∧ f.name ∈ g.genReq.fileToGenerate)
      ∧ (∀ name, g.genReq.protoFile.filter (fun f => decide (f.name = name)) = []
          ↔ name ∉ g.genReq.protoFile.map (fun f => f.name)) := by
  refine ⟨protoFilesToGenerate_eq g, ?_, ?_⟩
  · intro f
    rw [protoFilesToGenerate_eq]
    simp only [List.mem_flatMap, List.mem_filter, decide_eq_true_eq]
    constructor
    · rintro ⟨name, hn, hf, rfl⟩
      exact ⟨hf, hn⟩
    · rintro ⟨hf, hn⟩
      exact ⟨f.name, hn, hf, rfl⟩
  · intro name
    simp [List.filter_eq_nil_iff]

set_option maxRecDepth 100000 in
/-- C6, as stated, fails: for the requested file `a_b.proto` the output path
is "Proto/AB_JSON.hs", not the title-cased stem "Proto/A_b_JSON.hs". -/
theorem C6_path_not_titleCased_counterexample :
    snakeFileGenerator.Generate.file.map (fun r => r.name) = ["Proto/AB_JSON.hs"]
      ∧ snakeFileGenerator.protoFilesToGenerate.map
          (fun f => "Proto/" ++ packageFileName_titleCased (filePath f) ++ "_JSON.hs")
        = ["Proto/A_b_JSON.hs"]
      ∧ snakeFileGenerator.Generate.file.map (fun r => r.name)
        ≠ snakeFileGenerator.protoFilesToGenerate.map
          (fun f => "Proto/" ++ packageFileName_titleCased (filePath f) ++ "_JSON.hs") := by
  decide

/-- C6, amended: `Generate` returns one entry per file selected by
`protoFilesToGenerate`, in the same order; the output path is "Proto/",
then `pascalCase` of the path with its extension stripped, then "_JSON.hs",
and the text is `generateHaskellCode` of the file. -/
theorem C6_Generate_entries (g : generator) :
    g.Generate.file
        = g.protoFilesToGenerate.map (fun f =>
            { name := "Proto/"
                ++ pascalCase (strings.TrimSuffix f.name (filepath.Ext f.name)) ++ "_JSON.hs",
              content := g.generateHaskellCode f })
      ∧ g.Generate.file.length = g.protoFilesToGenerate.length := by
  rw [Generate_eq]
  exact ⟨rfl, by simp⟩

/-- C7: for a message named N with zero fields, the text appended by
`generateMessage` is the instances of its oneof groups, then exactly the
input-ignoring decoder, the two empty encoders and the bridging instances
of N, with no per-field line, then the text of the nested declarations. -/
theorem C7_zero_field_message (b : Buffer) (message : DescriptorProto)
    (h : message.field = []) :
    generateMessage b message
      = b ++ (message.oneofDecl.flatMap (fun oneof => generateOneof [] message oneof)
        ++ ["",
            "instance FromJSONPB " ++ message.name ++ " where",
            "  parseJSONPB = withObject \"" ++ message.name ++ "\" $ \\_ -> pure defMessage",
            "",
            "instance ToJSONPB " ++ message.name ++ " where",
            "  toJSONPB _ = object []",
            "  toEncodingPB _ = pairs []",
            "",
            "instance FromJSON " ++ message.name ++ " where",
            "  parseJSON = parseJSONPB",
            "",
            "instance ToJSON " ++ message.name ++ " where",
            "  toJSON = toAesonValue",
            "  toEncoding = toAesonEncoding"]
        ++ message.nestedType.flatMap (fun nested => generateMessage [] nested)
        ++ message.enumType.flatMap (fun enum => generateEnum [] enum (some message))) := by
  rw [generateMessage_eq]
  have e : messageInstanceLines message
      = ["",
         "instance FromJSONPB " ++ message.name ++ " where",
         "  parseJSONPB = withObject \"" ++ message.name ++ "\" $ \\_ -> pure defMessage",
         "",
         "instance ToJSONPB " ++ message.name ++ " where",
         "  toJSONPB _ = object []",
         "  toEncodingPB _ = pairs []",
         "",
         "instance FromJSON " ++ message.name ++ " where",
         "  parseJSON = parseJSONPB",
         "",
         "instance ToJSON " ++ message.name ++ " where",
         "  toJSON = toAesonValue",
         "  toEncoding = toAesonEncoding"] := by
    unfold messageInstanceLines
    simp [h, printToFromJSONInstances_eq, bridgingLines]
  rw [e]

set_option maxRecDepth 100000 in
/-- C7 at the message `Empty`. -/
theorem C7_zero_field_message_witness :
    emptyMessage.field = []
      ∧ generateMessage [] emptyMessage
        = ["",
           "instance FromJSONPB Empty where",
           "  parseJSONPB = withObject \"Empty\" $ \\_ -> pure defMessage",
           "",
           "instance ToJSONPB Empty where",
           "  toJSONPB _ = object []",
           "  toEncodingPB _ = pairs []",
           "",
           "instance FromJSON Empty where",
           "  parseJSON = parseJSONPB",
           "",
           "instance ToJSON Empty where",
           "  toJSON = toAesonValue",
           "  toEncoding = toAesonEncoding"] :=
  ⟨rfl, (C7_zero_field_message [] emptyMessage rfl).trans (by decide)⟩

/-- C8: for a message whose only oneof group is `oneof` (every oneof
index in the message is 0), `generateOneof` prints, for the members of the
group in declared order, one decode alternative, then one `toJSONPB` case,
then one `toEncodingPB` case each; every one is keyed by the member's
original name, uses the constructor of the title-cased message name, a
prime and the Pascal-cased member name, and the encode payload is `Just x`
exactly for a non-repeated MESSAGE member and `x` otherwise. -/
theorem C8_single_group_oneof (b : Buffer) (message : DescriptorProto)
    (oneof : OneofDescriptorProto) (_hgroup : message.oneofDecl = [oneof])
    (hindex : ∀ field ∈ message.field, field.oneofIndex = none ∨ field.oneofIndex = some 0) :
    generateOneof b message oneof
      = b ++ (["",
            "instance FromJSONPB " ++ strings.Title message.name ++ "'"
              ++ pascalCase oneof.name ++ " where",
            "  parseJSONPB = A.withObject \"" ++ strings.Title message.name ++ "'"
              ++ pascalCase oneof.name ++ "\" $ \\obj -> mconcat",
            "    ["]
        ++ (match message.field.filter (fun field => decide (field.oneofIndex = some 0)) with
            | [] => []
            | first :: rest =>
              ("    " ++ " " ++ " " ++ strings.Title message.name ++ "'" ++ pascalCase first.name
                ++ " <$> parseField obj \"" ++ first.name ++ "\"")
              :: rest.map (fun member =>
                "    " ++ "," ++ " " ++ strings.Title message.name ++ "'"
                  ++ pascalCase member.name ++ " <$> parseField obj \"" ++ member.name ++ "\""))
        ++ ["    ]",
            "",
            "instance ToJSONPB " ++ strings.Title message.name ++ "'"
              ++ pascalCase oneof.name ++ " where"]
        ++ (message.field.filter (fun field => decide (field.oneofIndex = some 0))).map
            (fun member =>
              "  toJSONPB (" ++ strings.Title message.name ++ "'" ++ pascalCase member.name
                ++ " x) = object [ \"" ++ member.name ++ "\" .= "
                ++ (if member.type = .TYPE_MESSAGE ∧ member.label ≠ .LABEL_REPEATED then "Just x"
                    else "x") ++ " ]")
        ++ (message.field.filter (fun field => decide (field.oneofIndex = some 0))).map
            (fun member =>
              "  toEncodingPB (" ++ strings.Title message.name ++ "'" ++ pascalCase member.name
                ++ " x) = pairs [ \"" ++ member.name ++ "\" .= "
                ++ (if member.type = .TYPE_MESSAGE ∧ member.label ≠ .LABEL_REPEATED then "Just x"
                    else "x") ++ " ]")
        ++ ["",
            "instance FromJSON " ++ strings.Title message.name ++ "'" ++ pascalCase oneof.name
              ++ " where",
            "  parseJSON = parseJSONPB",
            "",
            "instance ToJSON " ++ strings.Title message.name ++ "'" ++ pascalCase oneof.name
              ++ " where",
            "  toJSON = toAesonValue",
            "  toEncoding = toAesonEncoding"]) := by
  have hmembers : oneofFields message
      = message.field.filter (fun field => decide (field.oneofIndex = some 0)) := by
    unfold oneofFields
    apply List.filter_congr
    intro field hf
    rcases hindex field hf with h | h <;> simp [h]
  have hw : ∀ member : FieldDescriptorProto,
      (if presenceWrapped member = true then "Just x" else "x")
        = (if member.type = .TYPE_MESSAGE ∧ member.label ≠ .LABEL_REPEATED then "Just x"
            else "x") := by
    intro member
    unfold presenceWrapped
    by_cases h₁ : member.type = .TYPE_MESSAGE <;>
      by_cases h₂ : member.label = .LABEL_REPEATED <;> simp [h₁, h₂]
  have hd : ∀ l : List FieldDescriptorProto,
      oneofDecodeLines (strings.Title message.name) l
        = (match l with
            | [] => []
            | first :: rest =>
              ("    " ++ " " ++ " " ++ strings.Title message.name ++ "'" ++ pascalCase first.name
                ++ " <$> parseField obj \"" ++ first.name ++ "\"")
              :: rest.map (fun member =>
                "    " ++ "," ++ " " ++ strings.Title message.name ++ "'"
                  ++ pascalCase member.name ++ " <$> parseField obj \"" ++ member.name ++ "\"")) := by
    intro l
    cases l <;> rfl
  have hj : ∀ l : List FieldDescriptorProto,
      l.map (oneofToJSONLine (strings.Title message.name))
        = l.map (fun member =>
            "  toJSONPB (" ++ strings.Title message.name ++ "'" ++ pascalCase member.name
              ++ " x) = object [ \"" ++ member.name ++ "\" .= "
              ++ (if member.type = .TYPE_MESSAGE ∧ member.label ≠ .LABEL_REPEATED then "Just x"
                  else "x") ++ " ]") := by
    intro l
    apply List.map_congr_left
    intro member _
    simp only [oneofToJSONLine, hw]
  have he : ∀ l : List FieldDescriptorProto,
      l.map (oneofToEncodingLine (strings.Title message.name))
        = l.map (fun member =>
            "  toEncodingPB (" ++ strings.Title message.name ++ "'" ++ pascalCase member.name
              ++ " x) = pairs [ \"" ++ member.name ++ "\" .= "
              ++ (if member.type = .TYPE_MESSAGE ∧ member.label ≠ .LABEL_REPEATED then "Just x"
                  else "x") ++ " ]") := by
    intro l
    apply List.map_congr_left
    intro member _
    simp only [oneofToEncodingLine, hw]
  rw [generateOneof_eq, hmembers, hd, hj, he]
  rfl

set_option maxRecDepth 100000 in
/-- C8 at the message `shape` with the single group `kind` and the members
`label_text` (a string) and `circle` (a message). -/
theorem C8_single_group_oneof_witness :
    (shapeMessage.oneofDecl = [{ name := "kind" }]
        ∧ ∀ field ∈ shapeMessage.field, field.oneofIndex = none ∨ field.oneofIndex = some 0)
      ∧ generateOneof [] shapeMessage { name := "kind" }
        = ["",
           "instance FromJSONPB Shape'Kind where",
           "  parseJSONPB = A.withObject \"Shape'Kind\" $ \\obj -> mconcat",
           "    [",
           "      Shape'LabelText <$> parseField obj \"label_text\"",
           "    , Shape'Circle <$> parseField obj \"circle\"",
           "    ]",
           "",
           "instance ToJSONPB Shape'Kind where",
           "  toJSONPB (Shape'LabelText x) = object [ \"label_text\" .= x ]",
           "  toJSONPB (Shape'Circle x) = object [ \"circle\" .= Just x ]",
           "  toEncodingPB (Shape'LabelText x) = pairs [ \"label_text\" .= x ]",
           "  toEncodingPB (Shape'Circle x) = pairs [ \"circle\" .= Just x ]",
           "",
           "instance FromJSON Shape'Kind where",
           "  parseJSON = parseJSONPB",
           "",
           "instance ToJSON Shape'Kind where",
           "  toJSON = toAesonValue",
           "  toEncoding = toAesonEncoding"] :=
  ⟨by decide,
    (C8_single_group_oneof [] shapeMessage { name := "kind" } (by decide) (by decide)).trans
      (by decide)⟩

/-- C9: for an enum with the values v1..vn, `generateEnum` prints the
instance head, then exactly one value case per value in declared order, the
case of vi matching the JSON string of vi's upper-cased name and yielding
the constructor of that upper-cased name, prefixed by the owning message's
name and a prime exactly when the enum is nested, then the one catch-all
case, which carries the enum's name, then the encode and bridging
instances. -/
theorem C9_generateEnum_cases (b : Buffer) (enum : EnumDescriptorProto)
    (parent : Option DescriptorProto) :
    generateEnum b enum parent
      = b ++ (["", "instance FromJSONPB " ++ enumQualifier parent ++ enum.name ++ " where"]
        ++ enum.value.map (fun value =>
            "  parseJSONPB (JSONPB.String \"" ++ strings.ToUpper value.name ++ "\") = pure "
              ++ enumQualifier parent ++ strings.ToUpper value.name)
        ++ ["  parseJSONPB x = typeMismatch \"" ++ enum.name ++ "\" x",
            "",
            "instance ToJSONPB " ++ enumQualifier parent ++ enum.name ++ " where",
            "  toJSONPB x _ = A.String . T.toUpper . T.pack $ show x",
            "  toEncodingPB x _ = E.text . T.toUpper . T.pack  $ show x"]
        ++ bridgingLines (enumQualifier parent ++ enum.name))
      ∧ (generateEnum [] enum parent).length = enum.value.length + 14
      ∧ enumQualifier none = ""
      ∧ ∀ p : DescriptorProto, enumQualifier (some p) = p.name ++ "'" :=
  ⟨generateEnum_eq b enum parent,
    by simp [generateEnum_eq, bridgingLines],
    rfl, fun _ => rfl⟩

/-- C10: the text appended by `generateMessage` is the instances of the
message's oneof groups, then the message's own instances, then the complete
`generateMessage` text of each nested message in declared order, then the
`generateEnum` text of each nested enum in declared order, qualified by the
message; the own instances therefore come before the text of everything
nested in the message, and `generateMessage`, defined by recursion on the
tree, returns on every message. -/
theorem C10_generateMessage_order (b : Buffer) (message : DescriptorProto) :
    generateMessage b message
      = b ++ (message.oneofDecl.flatMap (fun oneof => generateOneof [] message oneof)
        ++ messageInstanceLines message
        ++ message.nestedType.flatMap (fun nested => generateMessage [] nested)
        ++ message.enumType.flatMap (fun enum => generateEnum [] enum (some message))) :=
  generateMessage_eq b message

/-- C11: the text `generateHaskellCode` returns is the fixed header (the
banner with the version string, the pragmas, the module line of
`packageFileName` of the path, the fixed imports), then one
`generateMessage` block per top-level message in declared order, then one
unqualified `generateEnum` block per top-level enum in declared order; every
top-level message block comes before every top-level enum block. -/
theorem C11_generateHaskellCode_layout (g : generator) (file : FileDescriptorProto) :
    g.generateHaskellCode file
      = Buffer.String
          (["-- Code generated by protoc-gen-jsonpb_haskell " ++ g.version ++ ", DO NOT EDIT.",
            "\x7b-# LANGUAGE OverloadedStrings #-\x7d",
            "\x7b-# OPTIONS_GHC -Wno-orphans -Wno-unused-imports -Wno-missing-export-lists #-\x7d",
            "module Proto." ++ packageFileName file.name ++ "_JSON where",
            "",
            "import           Prelude(($), (.), (<$>), pure, show, Maybe(..))",
            "",
            "import           Data.ProtoLens.Runtime.Lens.Family2 ((^.), (.~), (&))",
            "import           Data.Monoid (mconcat)",
            "import           Control.Monad (msum)",
            "import           Data.ProtoLens (defMessage)",
            "import qualified Data.Aeson as A",
            "import qualified Data.Aeson.Encoding as E",
            "import           Data.ProtoLens.JSONPB as JSONPB",
            "import qualified Data.Text as T",
            "",
            "import           Proto." ++ packageFileName file.name ++ " as P",
            "import           Proto." ++ packageFileName file.name ++ "_Fields as P"]
          ++ file.messageType.flatMap (fun message => generateMessage [] message)
          ++ file.enumType.flatMap (fun enum => generateEnum [] enum none)) :=
  generateHaskellCode_eq g file

/-- C13: for a field whose wire kind is mapped to the base type expression
`base`, `toType` returns "Vector base" when the label is repeated, whatever
the kind, the prefix, "Maybe base" and the suffix when the label is not
repeated and the kind is MESSAGE, and `base` unchanged otherwise; a
non-repeated ENUM field gets its resolved type name without `Maybe`. -/
theorem C13_toType_wrapping (field : FieldDescriptorProto) (pfx suffix base : String)
    (hbase : baseType field pfx suffix = some base) :
    toType field pfx suffix
        = Except.ok
            (if field.label = .LABEL_REPEATED then "Vector " ++ base
             else if field.type = .TYPE_MESSAGE then pfx ++ "Maybe " ++ base ++ suffix
             else base)
      ∧ ∀ (name typeName : String) (label : FieldLabel) (oneofIndex : Option Int),
          toType { name := name, label := label, type := .TYPE_ENUM, typeName := typeName,
                   oneofIndex := oneofIndex } pfx suffix
            = Except.ok
                (if label = .LABEL_REPEATED then "Vector " ++ toHaskellType typeName
                 else toHaskellType typeName) := by
  constructor
  · rw [toType_eq, hbase]
  · intro name typeName label oneofIndex
    cases label <;> rfl

set_option maxRecDepth 100000 in
/-- C13 at the field `repeated Point points` of the message type
`.geo.Point`: the base type is `Point` and the result `Vector Point`. -/
theorem C13_toType_wrapping_witness :
    baseType pointsField "(" ")" = some "Point"
      ∧ toType pointsField "(" ")" = Except.ok "Vector Point" :=
  ⟨by decide, (C13_toType_wrapping pointsField "(" ")" "Point" (by decide)).1.trans rfl⟩

set_option maxRecDepth 100000 in
/-- C14, as stated, fails: for a field of the kind SFIXED32 `toType` returns
`Signed Int32`, not the unsigned `Word32` under the marker `Signed`. -/
theorem C14_signed_fixed_not_unsigned_counterexample :
    toType deltaField "" "" = Except.ok "Signed Int32"
      ∧ toType deltaField "" "" ≠ Except.ok "Signed Word32" :=
  ⟨rfl, fun h => absurd (Except.ok.inj h) (by decide)⟩

/-- C14, amended: for a field of the kind SFIXED32 or SFIXED64 the base type
expression of `toType` is the signed integer type of that width, `Int32` or
`Int64`, under the marker `Signed`, and for a field of the kind FIXED32 or
FIXED64 it is the unsigned integer type, `Word32` or `Word64`, under the
marker `Fixed`, each written between the prefix and the suffix; `toType`
returns it as it is for a non-repeated label and after "Vector " for a
repeated one. -/
theorem C14_fixed_width_base_types (name typeName : String) (label : FieldLabel)
    (oneofIndex : Option Int) (pfx suffix : String) :
    toType { name := name, label := label, type := .TYPE_SFIXED32, typeName := typeName,
             oneofIndex := oneofIndex } pfx suffix
        = Except.ok (if label = .LABEL_REPEATED then "Vector " ++ (pfx ++ "Signed Int32" ++ suffix)
                     else pfx ++ "Signed Int32" ++ suffix)
      ∧ toType { name := name, label := label, type := .TYPE_SFIXED64, typeName := typeName,
                 oneofIndex := oneofIndex } pfx suffix
        = Except.ok (if label = .LABEL_REPEATED then "Vector " ++ (pfx ++ "Signed Int64" ++ suffix)
                     else pfx ++ "Signed Int64" ++ suffix)
      ∧ toType { name := name, label := label, type := .TYPE_FIXED32, typeName := typeName,
                 oneofIndex := oneofIndex } pfx suffix
        = Except.ok (if label = .LABEL_REPEATED then "Vector " ++ (pfx ++ "Fixed Word32" ++ suffix)
                     else pfx ++ "Fixed Word32" ++ suffix)
      ∧ toType { name := name, label := label, type := .TYPE_FIXED64, typeName := typeName,
                 oneofIndex := oneofIndex } pfx suffix
        = Except.ok (if label = .LABEL_REPEATED then "Vector " ++ (pfx ++ "Fixed Word64" ++ suffix)
                     else pfx ++ "Fixed Word64" ++ suffix) := by
  cases label <;> exact ⟨rfl, rfl, rfl, rfl⟩

set_option maxRecDepth 100000 in
/-- C15, as stated, fails: for the file `g.proto`, whose message `G` has a
field of the kind GROUP, `Generate` returns the entry of the file, and the
text of `G` holds the read, assignment and encode lines of that field;
only `toType`, which generation never calls, fails on the field. -/
theorem C15_group_field_is_generated_counterexample :
    groupFileGenerator.Generate.file.map (fun r => r.name) = ["Proto/G_JSON.hs"]
      ∧ generateMessage [] groupMessage
        = ["",
           "instance FromJSONPB G where",
           "  parseJSONPB = withObject \"G\" $ \\obj -> do",
           "    legacy' <- obj .: \"legacy\"",
           "    pure $ defMessage",
           "      & P.legacy .~ legacy'",
           "",
           "instance ToJSONPB G where",
           "  toJSONPB x = object",
           "    [ \"legacy\" .= (x^.legacy)",
           "    ]",
           "  toEncodingPB x = pairs",
           "    [ \"legacy\" .= (x^.legacy)",
           "    ]",
           "",
           "instance FromJSON G where",
           "  parseJSON = parseJSONPB",
           "",
           "instance ToJSON G where",
           "  toJSON = toAesonValue",
           "  toEncoding = toAesonEncoding",
           "",
           "instance FromJSONPB Legacy where",
           "  parseJSONPB = withObject \"Legacy\" $ \\_ -> pure defMessage",
           "",
           "instance ToJSONPB Legacy where",
           "  toJSONPB _ = object []",
           "  toEncodingPB _ = pairs []",
           "",
           "instance FromJSON Legacy where",
           "  parseJSON = parseJSONPB",
           "",
           "instance ToJSON Legacy where",
           "  toJSON = toAesonValue",
           "  toEncoding = toAesonEncoding"]
      ∧ toType legacyField "" "" = Except.error "no mapping for type TYPE_GROUP" :=
  ⟨by decide, by decide, rfl⟩

/-- C15, amended: on a field whose wire kind has no entry in the mapping
table (GROUP) `toType` fails with the fatal error "no mapping for type
TYPE_GROUP" instead of returning a type expression; the generation of a file
does not call `toType`: in every message such a field, when it is not in a
oneof group, is classified and emitted like any other field that is not
presence-wrapped, with its must-be-present read line in the own block of the
message, a contiguous part of the generated text. -/
theorem C15_toType_fails_generation_goes_on (field : FieldDescriptorProto)
    (pfx suffix : String) (b : Buffer) (message : DescriptorProto)
    (hkind : field.type = .TYPE_GROUP) (hmem : field ∈ message.field)
    (hplain : field.oneofIndex = none) :
    toType field pfx suffix = Except.error "no mapping for type TYPE_GROUP"
      ∧ ("    " ++ toHaskellFieldName field.name ++ "' <- obj .: \""
          ++ toHaskellFieldName field.name ++ "\"") ∈ messageInstanceLines message
      ∧ messageInstanceLines message <:+: generateMessage b message := by
  have hne : message.field ≠ [] := List.ne_nil_of_mem hmem
  have hw : presenceWrapped field = false := by simp [presenceWrapped, hkind]
  have hp : plainEntry field
      ∈ (plainFields message).map plainEntry ++ message.oneofDecl.map groupEntry := by
    apply List.mem_append_left
    apply List.mem_map_of_mem
    simp [plainFields, hmem, hplain]
  refine ⟨?_, ?_, messageInstanceLines_contiguous b message⟩
  · rw [toType_eq]
    simp [baseType, hkind, FieldType.String]
  · obtain ⟨sep, _, hs⟩ := mem_setSeps "<$>" "<*>" _ _ true hp
    rw [← fieldsForMessageInstance_eq] at hs
    have := mem_messageInstanceLines_read message _ hne hs
    simpa [decodeReadLine, plainEntry, hw] using this

set_option maxRecDepth 100000 in
/-- C15, amended, at the message `G` and its GROUP field `legacy`. -/
theorem C15_toType_fails_generation_goes_on_witness :
    (legacyField.type = .TYPE_GROUP ∧ legacyField ∈ groupMessage.field
        ∧ legacyField.oneofIndex = none)
      ∧ toType legacyField "" "" = Except.error "no mapping for type TYPE_GROUP"
      ∧ messageInstanceLines groupMessage <:+: generateMessage [] groupMessage :=
  ⟨by decide,
    (C15_toType_fails_generation_goes_on legacyField "" "" [] groupMessage
      (by decide) (by decide) (by decide)).1,
    (C15_toType_fails_generation_goes_on legacyField "" "" [] groupMessage
      (by decide) (by decide) (by decide)).2.2⟩


/-- C19: for a message with at least one field, the decode block printed by
`generateMessage` is the head line, then exactly one read line per entry of
the classified list, in list order, the permit-absent read `A..:?` for a
presence-wrapped entry and the must-be-present read `.:` otherwise, each
bound to the entry's identifier and a prime, then `pure $ defMessage`, then
exactly one assignment line per entry in the same order, through the
accessor `maybe'` and the identifier for a presence-wrapped entry and
through the identifier otherwise; the encode instances follow. -/
theorem C19_decode_block (b : Buffer) (message : DescriptorProto)
    (hne : message.field ≠ []) :
    generateMessage b message
      = b ++ (message.oneofDecl.flatMap (fun oneof => generateOneof [] message oneof)
        ++ (["", "instance FromJSONPB " ++ message.name ++ " where",
              "  parseJSONPB = withObject \"" ++ message.name ++ "\" $ \\obj -> do"]
          ++ (fieldsForMessageInstance message "<$>" "<*>").map (fun f =>
                if f.isMaybeField then
                  "    " ++ f.fieldName ++ "' <- obj A..:? \"" ++ f.fieldName ++ "\""
                else
                  "    " ++ f.fieldName ++ "' <- obj .: \"" ++ f.fieldName ++ "\"")
          ++ ["    pure $ defMessage"]
          ++ (fieldsForMessageInstance message "<$>" "<*>").map (fun f =>
                "      & P." ++ (if f.isMaybeField then "maybe'" ++ f.fieldName else f.fieldName)
                  ++ " .~ " ++ f.fieldName ++ "'")
          ++ ["", "instance ToJSONPB " ++ message.name ++ " where", "  toJSONPB x = object"]
          ++ (fieldsForMessageInstance message "[" ",").map encodeLine
          ++ ["    ]", "  toEncodingPB x = pairs"]
          ++ (fieldsForMessageInstance message "[" ",").map encodeLine
          ++ ["    ]"]
          ++ bridgingLines message.name)
        ++ message.nestedType.flatMap (fun nested => generateMessage [] nested)
        ++ message.enumType.flatMap (fun enum => generateEnum [] enum (some message))) := by
  have ha : (fieldsForMessageInstance message "<$>" "<*>").map decodeAssignLine
      = (fieldsForMessageInstance message "<$>" "<*>").map (fun f =>
          "      & P." ++ (if f.isMaybeField then "maybe'" ++ f.fieldName else f.fieldName)
            ++ " .~ " ++ f.fieldName ++ "'") := by
    apply List.map_congr_left
    intro f hf
    simp only [decodeAssignLine, lensFieldName_of_mem message _ _ f hf]
  have hr : (fieldsForMessageInstance message "<$>" "<*>").map decodeReadLine
      = (fieldsForMessageInstance message "<$>" "<*>").map (fun f =>
          if f.isMaybeField then
            "    " ++ f.fieldName ++ "' <- obj A..:? \"" ++ f.fieldName ++ "\""
          else
            "    " ++ f.fieldName ++ "' <- obj .: \"" ++ f.fieldName ++ "\"") := rfl
  rw [generateMessage_eq, messageInstanceLines_of_fields message hne, ha, hr]

set_option maxRecDepth 100000 in
/-- C19 at the message `Pair` with the message field `origin` and the
oneof group `extra`. -/
theorem C19_decode_block_witness :
    pairMessage.field ≠ []
      ∧ generateMessage [] pairMessage
        = ["",
           "instance FromJSONPB Pair'Extra where",
           "  parseJSONPB = A.withObject \"Pair'Extra\" $ \\obj -> mconcat",
           "    [",
           "      Pair'Note <$> parseField obj \"note\"",
           "    ]",
           "",
           "instance ToJSONPB Pair'Extra where",
           "  toJSONPB (Pair'Note x) = object [ \"note\" .= x ]",
           "  toEncodingPB (Pair'Note x) = pairs [ \"note\" .= x ]",
           "",
           "instance FromJSON Pair'Extra where",
           "  parseJSON = parseJSONPB",
           "",
           "instance ToJSON Pair'Extra where",
           "  toJSON = toAesonValue",
           "  toEncoding = toAesonEncoding",
           "",
           "instance FromJSONPB Pair where",
           "  parseJSONPB = withObject \"Pair\" $ \\obj -> do",
           "    origin' <- obj A..:? \"origin\"",
           "    extra' <- obj A..:? \"extra\"",
           "    pure $ defMessage",
           "      & P.maybe'origin .~ origin'",
           "      & P.maybe'extra .~ extra'",
           "",
           "instance ToJSONPB Pair where",
           "  toJSONPB x = object",
           "    [ \"origin\" .= (x^.maybe'origin)",
           "    , \"extra\" .= (x^.maybe'extra)",
           "    ]",
           "  toEncodingPB x = pairs",
           "    [ \"origin\" .= (x^.maybe'origin)",
           "    , \"extra\" .= (x^.maybe'extra)",
           "    ]",
           "",
           "instance FromJSON Pair where",
           "  parseJSON = parseJSONPB",
           "",
           "instance ToJSON Pair where",
           "  toJSON = toAesonValue",
           "  toEncoding = toAesonEncoding"] :=
  ⟨by decide, (C19_decode_block [] pairMessage (by decide)).trans (by decide)⟩

/-- C20: for a message with at least one field in which every oneof index
names a declared oneof group, the classified list is not empty, its first
entry carries "[" and every later entry ",", and the text `generateMessage`
appends holds, in each of the two encode literals, the head line, one entry
line opening with "[", every other entry line opening with ",", and one
closing "]" line.  Without the precondition the list can be empty: for the
message `Orphan`, whose only field carries a oneof index with no group
declared, `generateMessage` prints both literals as the head line and the
closing "]" line alone, with no line opening with "[". -/
theorem C20_encode_literal_brackets (b : Buffer) (message : DescriptorProto)
    (hne : message.field ≠ [])
    (hindex : ∀ field ∈ message.field, ∀ i : Int, field.oneofIndex = some i →
      0 ≤ i ∧ i < message.oneofDecl.length) :
    fieldsForMessageInstance message "[" "," ≠ []
      ∧ (fieldsForMessageInstance message "[" ",").map (fun f => f.sep)
          = (match fieldsForMessageInstance message "[" "," with
              | [] => []
              | _ :: rest => "[" :: rest.map (fun _ => ","))
      ∧ generateMessage b message
          = b ++ (message.oneofDecl.flatMap (fun oneof => generateOneof [] message oneof)
            ++ (["", "instance FromJSONPB " ++ message.name ++ " where",
                  "  parseJSONPB = withObject \"" ++ message.name ++ "\" $ \\obj -> do"]
              ++ (fieldsForMessageInstance message "<$>" "<*>").map decodeReadLine
              ++ ["    pure $ defMessage"]
              ++ (fieldsForMessageInstance message "<$>" "<*>").map decodeAssignLine
              ++ ["", "instance ToJSONPB " ++ message.name ++ " where",
                  "  toJSONPB x = object"]
              ++ (match fieldsForMessageInstance message "[" "," with
                  | [] => []
                  | first :: rest =>
                    ("    " ++ "[" ++ " \"" ++ first.fieldName ++ "\" .= (x^."
                      ++ first.lensFieldName ++ ")")
                    :: rest.map (fun f =>
                      "    " ++ "," ++ " \"" ++ f.fieldName ++ "\" .= (x^." ++ f.lensFieldName
                        ++ ")"))
              ++ ["    ]", "  toEncodingPB x = pairs"]
              ++ (match fieldsForMessageInstance message "[" "," with
                  | [] => []
                  | first :: rest =>
                    ("    " ++ "[" ++ " \"" ++ first.fieldName ++ "\" .= (x^."
                      ++ first.lensFieldName ++ ")")
                    :: rest.map (fun f =>
                      "    " ++ "," ++ " \"" ++ f.fieldName ++ "\" .= (x^." ++ f.lensFieldName
                        ++ ")"))
              ++ ["    ]"]
              ++ bridgingLines message.name)
            ++ message.nestedType.flatMap (fun nested => generateMessage [] nested)
            ++ message.enumType.flatMap (fun enum => generateEnum [] enum (some message)))
      ∧ (orphanMessage.field ≠ [] ∧ fieldsForMessageInstance orphanMessage "[" "," = []
          ∧ generateMessage [] orphanMessage
            = ["",
               "instance FromJSONPB Orphan where",
               "  parseJSONPB = withObject \"Orphan\" $ \\obj -> do",
               "    pure $ defMessage",
               "",
               "instance ToJSONPB Orphan where",
               "  toJSONPB x = object",
               "    ]",
               "  toEncodingPB x = pairs",
               "    ]",
               "",
               "instance FromJSON Orphan where",
               "  parseJSON = parseJSONPB",
               "",
               "instance ToJSON Orphan where",
               "  toJSON = toAesonValue",
               "  toEncoding = toAesonEncoding"]) := by
  have hc := classified_ne_nil message hne hindex
  obtain ⟨first, rest, hfr⟩ := List.exists_cons_of_ne_nil hc
  have hl : fieldsForMessageInstance message "[" ","
      = { first with sep := "[" } :: rest.map (fun f => { f with sep := "," }) := by
    rw [fieldsForMessageInstance_eq, hfr, setSeps_true_cons]
  have hlit : (fieldsForMessageInstance message "[" ",").map encodeLine
      = (match fieldsForMessageInstance message "[" "," with
          | [] => []
          | first :: rest =>
            ("    " ++ "[" ++ " \"" ++ first.fieldName ++ "\" .= (x^."
              ++ first.lensFieldName ++ ")")
            :: rest.map (fun f =>
              "    " ++ "," ++ " \"" ++ f.fieldName ++ "\" .= (x^." ++ f.lensFieldName
                ++ ")")) := by
    rw [hl]
    simp [encodeLine, Function.comp_def]
  refine ⟨by rw [hl]; exact List.cons_ne_nil _ _, ?_, ?_, ?_⟩
  · rw [hl]
    simp [Function.comp_def]
  · rw [generateMessage_eq, messageInstanceLines_of_fields message hne, hlit]
  · decide

set_option maxRecDepth 100000 in
/-- C20 at the message `Pair`: its field list is not empty, every oneof
index names the group `extra`, the classified list is not empty, and the
text `generateMessage` prints holds the literal of `toJSONPB` with one "["
line, one "," line and the closing "]" line. -/
theorem C20_encode_literal_brackets_witness :
    (pairMessage.field ≠ []
        ∧ ∀ field ∈ pairMessage.field, ∀ i : Int, field.oneofIndex = some i →
            0 ≤ i ∧ i < pairMessage.oneofDecl.length)
      ∧ fieldsForMessageInstance pairMessage "[" "," ≠ []
      ∧ ["  toJSONPB x = object",
         "    [ \"origin\" .= (x^.maybe'origin)",
         "    , \"extra\" .= (x^.maybe'extra)",
         "    ]",
         "  toEncodingPB x = pairs",
         "    [ \"origin\" .= (x^.maybe'origin)",
         "    , \"extra\" .= (x^.maybe'extra)",
         "    ]"] <:+: generateMessage [] pairMessage := by
  have hidx : ∀ field ∈ pairMessage.field, ∀ i : Int, field.oneofIndex = some i →
      0 ≤ i ∧ i < pairMessage.oneofDecl.length := by
    intro field hf i hi
    simp only [pairMessage, DescriptorProto.field, List.mem_cons, List.mem_singleton,
      List.not_mem_nil, or_false] at hf
    rcases hf with rfl | rfl
    · cases hi
    · cases hi
      decide
  have h := C20_encode_literal_brackets [] pairMessage (by decide) hidx
  refine ⟨⟨by decide, hidx⟩, h.1, ?_⟩
  rw [h.2.2.1]
  decide

set_option maxRecDepth 100000 in
/-- C16, as stated, fails: a later segment is lower-cased before it is
title-cased, so `user_ID` becomes "userId", not "userID". -/
theorem C16_later_segment_lowered_counterexample :
    toHaskellFieldName "user_ID" = "userId"
      ∧ toHaskellFieldName_titleCased "user_ID" = "userID"
      ∧ toHaskellFieldName "user_ID" ≠ toHaskellFieldName_titleCased "user_ID" := by
  decide

/-- C16, amended: for an ASCII identifier with the '_'-delimited segments
s0, s1, ..., sn, `toHaskellFieldName` is the concatenation of s0 lower-cased
and each later segment capitalized (lower-cased, then its first character
upper-cased), with the marker "'" appended exactly when that concatenation
is the reserved word "type"; the result contains no '_' and is never
"type". -/
theorem C16_toHaskellFieldName_lower_camel (s : String) (hs : isIdentifier s = true) :
    toHaskellFieldName s
        = (if camelChars s = ['t', 'y', 'p', 'e'] then String.mk (camelChars s ++ ['\''])
           else String.mk (camelChars s))
      ∧ '_' ∉ (toHaskellFieldName s).data
      ∧ toHaskellFieldName s ≠ "type" := by
  have hc : camelCase s = String.mk (camelChars s) := String.ext (data_camel s hs)
  have ht : (camelCase s = "type") ↔ camelChars s = ['t', 'y', 'p', 'e'] := by
    rw [hc]
    constructor
    · intro h; exact congrArg String.data h
    · intro h; rw [h]
  refine ⟨?_, ?_, ?_⟩
  · rw [toHaskellFieldName_eq]
    by_cases h : camelCase s = "type"
    · rw [if_pos h, if_pos (ht.mp h), hc]
      rfl
    · rw [if_neg h, if_neg (fun e => h (ht.mpr e)), hc]
  · intro h
    exact (mem_toHaskellFieldName '_' (by decide) (by decide) (by decide) s h).2 rfl
  · rw [toHaskellFieldName_eq]
    by_cases h : camelCase s = "type"
    · rw [if_pos h, h]
      decide
    · rw [if_neg h]
      exact h

set_option maxRecDepth 100000 in
/-- C16, amended, at the identifier `user_ID`. -/
theorem C16_toHaskellFieldName_lower_camel_witness :
    isIdentifier "user_ID" = true
      ∧ toHaskellFieldName "user_ID" = "userId"
      ∧ toHaskellFieldName "user_ID" ≠ "type" :=
  ⟨by decide,
    (C16_toHaskellFieldName_lower_camel "user_ID" (by decide)).1.trans (by decide),
    (C16_toHaskellFieldName_lower_camel "user_ID" (by decide)).2.2⟩

set_option maxRecDepth 100000 in
/-- C17, as stated, fails: a segment is lower-cased before its first letter
is upper-cased, so `user_ID` becomes "UserId", not "UserID". -/
theorem C17_segment_lowered_counterexample :
    pascalCase "user_ID" = "UserId"
      ∧ pascalCase_titleCased "user_ID" = "UserID"
      ∧ pascalCase "user_ID" ≠ pascalCase_titleCased "user_ID" := by
  decide

/-- C17, amended: for an ASCII identifier, `pascalCase` is the concatenation
of its '_'-delimited segments, each capitalized: every character of the
segment lower-cased, then the first one upper-cased; the result contains no
'_'. -/
theorem C17_pascalCase_capitalized_segments (s : String) (hs : isIdentifier s = true) :
    pascalCase s = String.mk ((strings.splitChars '_' s.data).flatMap capitalizeChars)
      ∧ '_' ∉ (pascalCase s).data :=
  ⟨String.ext (data_pascalCase s hs),
    fun h => (mem_pascalCase '_' (by decide) (by decide) s h).2 rfl⟩

set_option maxRecDepth 100000 in
/-- C17, amended, at the identifier `user_ID`. -/
theorem C17_pascalCase_capitalized_segments_witness :
    isIdentifier "user_ID" = true ∧ pascalCase "user_ID" = "UserId" :=
  ⟨by decide, (C17_pascalCase_capitalized_segments "user_ID" (by decide)).1.trans (by decide)⟩


set_option maxRecDepth 100000 in
/-- C18, as stated, fails: the reference "." begins with a dot, its final
dot-delimited segment is empty, and `toHaskellType` returns ".", which
contains a dot. -/
theorem C18_single_dot_counterexample :
    toHaskellType "." = "."
      ∧ lastSegment "." = ""
      ∧ toHaskellType "." ≠ lastSegment "."
      ∧ '.' ∈ (toHaskellType ".").data := by
  decide

/-- C18, amended: for a type reference that begins with '.' and has more
than one character, `toHaskellType` is the final '.'-delimited segment
alone, which contains no '.'; for every other reference, the one-character
reference "." included, it is the '.'-delimited segments, each title-cased,
joined with '.', with as many segments as the reference. -/
theorem C18_toHaskellType_segments (s : String) :
    if s.data.length > 1 ∧ s.data.head? = some '.' then
      toHaskellType s = lastSegment s ∧ '.' ∉ (toHaskellType s).data
    else
      toHaskellType s = strings.Join ((strings.Split s '.').map strings.Title) "."
        ∧ (strings.Split (toHaskellType s) '.').length = (strings.Split s '.').length := by
  split
  · rename_i h
    have e := toHaskellType_dot s h
    refine ⟨e, ?_⟩
    rw [e]
    intro hmem
    have hl := getLastD_mem (strings.Split s '.') "" (Split_ne_nil s '.')
    exact (mem_Split '.' s _ '.' hl hmem).2 rfl
  · rename_i h
    have e := toHaskellType_other s h
    refine ⟨e, ?_⟩
    rw [e, length_Split]
    have hs := splitChars_Join '.' ((strings.Split s '.').map strings.Title)
      (by
        intro hnil
        exact Split_ne_nil s '.' (List.map_eq_nil_iff.mp hnil))
      (by
        intro p hp hmem
        obtain ⟨q, hq, rfl⟩ := List.mem_map.mp hp
        have := mem_titleMap '.' (by decide) q.data ' ' hmem
        exact (mem_Split '.' s q '.' hq this).2 rfl)
    have e2 : (String.mk ['.']) = "." := rfl
    rw [e2] at hs
    rw [hs]
    simp

set_option maxRecDepth 100000 in
/-- C18, amended, at a local and at a qualified reference. -/
theorem C18_toHaskellType_segments_witness :
    toHaskellType ".foo.Message" = "Message"
      ∧ toHaskellType "google.protobuf.Empty" = "Google.Protobuf.Empty"
      ∧ (strings.Split (toHaskellType "google.protobuf.Empty") '.').length = 3 := by
  have h₁ := C18_toHaskellType_segments ".foo.Message"
  have h₂ := C18_toHaskellType_segments "google.protobuf.Empty"
  rw [if_pos (by decide)] at h₁
  rw [if_neg (by decide)] at h₂
  exact ⟨h₁.1.trans (by decide), h₂.1.trans (by decide), h₂.2.trans (by decide)⟩


end ProtoLensJsonpb
